import Mathlib

/-!
Verification of the route-optimizer core of the Type-A-Itinerary repository
(`backend/app/services/route_optimizer.py`).

The embedding below is a shallow translation of `RouteOptimizer.solve_tsp`
and `RouteOptimizer._greedy_fallback`:

* `Waypoint` keeps the fields the optimizer reads or writes
  (`id`, `estimated_stay_duration`, `order`, `arrival_time`, `departure_time`);
  timestamps are integers counting seconds, `timedelta(minutes=m)` becomes
  `60 * m` seconds.
* the travel-time matrix `List[List[int]]` is represented as a total function
  `Nat → Nat → Int` (Python would raise on an out-of-range index; claims that
  depend on indices being in range carry explicit bounds hypotheses).
* the Python code mutates the waypoint objects in place; the embedding makes
  the heap explicit: the state carries the list of waypoints, `set` models a
  field assignment through a reference, and the returned "ordered" list holds
  the indices of the shared objects.  A function returns the pair
  (result list as values, final state of the input waypoint list).
* the OR-Tools call `routing.SolveWithParameters` is external to the
  repository; it is abstracted as an oracle argument `Option (List Nat)`:
  `none` models "no solution" (the code then calls the greedy fallback) and
  `some route` models a solution whose visit order, as walked by
  `while not routing.IsEnd(index)`, is the list `route` of node indices.
-/

/-- The fields of `db.models.Waypoint` that the route optimizer touches.
`estimated_stay_duration` is the nullable integer column (minutes);
`order`, `arrival_time` and `departure_time` start out unset. -/
structure Waypoint where
  id : Nat
  estimated_stay_duration : Option Int
  order : Option Nat
  arrival_time : Option Int
  departure_time : Option Int
deriving DecidableEq, Repr

instance : Inhabited Waypoint := ⟨⟨0, none, none, none, none⟩⟩

/-- `models.schemas.TripConstraints`, restricted to the fields the optimizer
reads (`start_time`; `end_time` is only fed to the OR-Tools dimension, which
the oracle abstracts). Timestamps are seconds. -/
structure TripConstraints where
  start_time : Int
  end_time : Int
deriving DecidableEq, Repr

/-- Python `wp.estimated_stay_duration or 60`: `None` and `0` are falsy, any
other integer is returned unchanged. -/
def stayMinutes : Option Int → Int
  | none => 60
  | some v => if v = 0 then 60 else v

/-- The in-place update `wp.order = o; wp.arrival_time = a; wp.departure_time = d`. -/
def scheduleWp (w : Waypoint) (o : Nat) (a d : Int) : Waypoint :=
  { w with order := some o, arrival_time := some a, departure_time := some d }

/-- The search loop `for i, wp in enumerate(waypoints): if wp.id == end_waypoint_id: ...`
returning the first matching index. -/
def findEndIdxAux (u : Nat) : List Waypoint → Nat → Option Nat
  | [], _ => none
  | wp :: rest, i => if wp.id = u then some i else findEndIdxAux u rest (i + 1)

/-- Lines 218-223 (and 55-61): resolve the optional end waypoint id to the
index of the first waypoint with that id; `None` stays unresolved. -/
def findEndIdx (waypoints : List Waypoint) : Option Nat → Option Nat
  | none => none
  | some u => findEndIdxAux u waypoints 0

/-- Lines 238-246: the scan
`best_idx = -1; best_distance = inf; for i, wp in enumerate(waypoints): if not visited[i]: ...`.
`dist i` is `distance_matrix[current_node][i + 1]`; the accumulator `none`
plays the role of `best_idx == -1` / `best_distance == inf`, and only a
strictly smaller distance replaces the current best. -/
def scanBest (dist : Nat → Int) : List Bool → Nat → Option (Nat × Int) → Option (Nat × Int)
  | [], _, acc => acc
  | v :: rest, i, acc =>
      scanBest dist rest (i + 1)
        (if v then acc
         else
           match acc with
           | none => some (i, dist i)
           | some (b, bd) => if dist i < bd then some (i, dist i) else some (b, bd))

/-- The mutable state of `_greedy_fallback`'s main loop: the (shared, mutable)
waypoint objects, the `visited` flags, the `ordered` list (as indices of the
shared objects), `current_node` and `current_time`. -/
structure FbState where
  wps : List Waypoint
  visited : List Bool
  ordered : List Nat
  current_node : Nat
  current_time : Int
deriving Repr

/-- One iteration of the `for order in range(1, num_to_visit + 1)` loop
(lines 236-267): pick the nearest unvisited waypoint (`none` models
`best_idx == -1`, i.e. `break`), add the travel time, set the waypoint's
`order`/`arrival_time`/`departure_time`, append it to `ordered`, and advance
`current_node` / `current_time`. -/
def fbStep (matrix : Nat → Nat → Int) (ordv : Nat) (s : FbState) : Option FbState :=
  match scanBest (fun i => matrix s.current_node (i + 1)) s.visited 0 none with
  | none => none
  | some (bi, bd) =>
      let wp := s.wps.getD bi default
      let arr := s.current_time + bd
      let dep := arr + 60 * stayMinutes wp.estimated_stay_duration
      some
        { wps := s.wps.set bi (scheduleWp wp ordv arr dep)
          visited := s.visited.set bi true
          ordered := s.ordered ++ [bi]
          current_node := bi + 1
          current_time := dep }

/-- The whole loop: `n` is `num_to_visit`, `ordv` the running `order` counter. -/
def fbLoop (matrix : Nat → Nat → Int) : Nat → Nat → FbState → FbState
  | 0, _, s => s
  | n + 1, ordv, s =>
      match fbStep matrix ordv s with
      | none => s
      | some s2 => fbLoop matrix n (ordv + 1) s2

/-- Lines 225-232: `visited = [False] * len(waypoints)` with the reserved end
waypoint pre-marked as visited. -/
def initVisited (waypoints : List Waypoint) (eid : Option Nat) : List Bool :=
  match findEndIdx waypoints eid with
  | none => List.replicate waypoints.length false
  | some e => (List.replicate waypoints.length false).set e true

/-- Lines 269-280: append the reserved end waypoint, with travel time from the
current node, `order = len(ordered) + 1`, and arrival/departure stamps. -/
def fbAppendEnd (matrix : Nat → Nat → Int) (e : Nat) (s : FbState) : FbState :=
  let t := s.current_time + matrix s.current_node (e + 1)
  let wp := s.wps.getD e default
  let dep := t + 60 * stayMinutes wp.estimated_stay_duration
  { wps := s.wps.set e (scheduleWp wp (s.ordered.length + 1) t dep)
    visited := s.visited
    ordered := s.ordered ++ [e]
    current_node := s.current_node
    current_time := t }

/-- `_greedy_fallback`, as the final loop state: end-id resolution, the
nearest-neighbour loop over `num_to_visit` iterations starting from the
origin node `0` at `start_time`, then the optional end append. -/
def fallbackFinal (waypoints : List Waypoint) (matrix : Nat → Nat → Int)
    (start : Int) (eid : Option Nat) : FbState :=
  let endIdx := findEndIdx waypoints eid
  let numToVisit := waypoints.length - (if endIdx.isSome then 1 else 0)
  let s1 := fbLoop matrix numToVisit 1
    { wps := waypoints
      visited := initVisited waypoints eid
      ordered := []
      current_node := 0
      current_time := start }
  match endIdx with
  | none => s1
  | some e => fbAppendEnd matrix e s1

/-- `RouteOptimizer._greedy_fallback`: returns the `ordered` list (the shared
objects, read back from the final heap) together with the final state of the
input waypoint list (to make the in-place mutation observable). -/
def greedy_fallback (waypoints : List Waypoint) (matrix : Nat → Nat → Int)
    (constraints : TripConstraints) (eid : Option Nat) :
    List Waypoint × List Waypoint :=
  let S := fallbackFinal waypoints matrix constraints.start_time eid
  (S.ordered.map (fun i => S.wps.getD i default), S.wps)

/-- The state of the solution-extraction loop of `solve_tsp` (lines 144-148):
shared waypoints, `ordered_waypoints` as indices, `route_order`, `current_time`. -/
structure ExtractState where
  wps : List Waypoint
  ordered : List Nat
  route_order : Nat
  current_time : Int
deriving Repr

/-- Lines 149-173, `while not routing.IsEnd(index)`: the oracle's `route` is
the list of nodes the loop visits. A node `> 0` is a waypoint: it receives
`order`/`arrival_time`/`departure_time` and `current_time` advances past its
stay; node `0` (the start pin) is skipped. Between two consecutive visited
nodes the matrix travel time is added (`if not routing.IsEnd(index)`). -/
def extractLoop (matrix : Nat → Nat → Int) : List Nat → ExtractState → ExtractState
  | [], s => s
  | node :: rest, s =>
      let s1 :=
        if 0 < node then
          let wp := s.wps.getD (node - 1) default
          let dep := s.current_time + 60 * stayMinutes wp.estimated_stay_duration
          { wps := s.wps.set (node - 1) (scheduleWp wp s.route_order s.current_time dep)
            ordered := s.ordered ++ [node - 1]
            route_order := s.route_order + 1
            current_time := dep }
        else s
      let s2 :=
        match rest with
        | [] => s1
        | next :: _ => { s1 with current_time := s1.current_time + matrix node next }
      extractLoop matrix rest s2

/-- Lines 176-190: with a fixed end, the end node is not walked by the loop;
if its waypoint is not already in `ordered_waypoints` (object identity, i.e.
index membership), add travel from the last ordered waypoint, stamp it with
`route_order`, and append it. `e` is `end_node_index` (waypoint index + 1). -/
def extractEnd (matrix : Nat → Nat → Int) : Option Nat → ExtractState → ExtractState
  | none, s => s
  | some e, s =>
      if (e - 1) ∈ s.ordered then s
      else
        let t :=
          match s.ordered.getLast? with
          | none => s.current_time
          | some lastIdx => s.current_time + matrix (lastIdx + 1) e
        let wp := s.wps.getD (e - 1) default
        let dep := t + 60 * stayMinutes wp.estimated_stay_duration
        { wps := s.wps.set (e - 1) (scheduleWp wp s.route_order t dep)
          ordered := s.ordered ++ [e - 1]
          route_order := s.route_order + 1
          current_time := t }

/-- `RouteOptimizer.solve_tsp`.  `oracle = none` models OR-Tools returning no
solution (line 139, fallback), `oracle = some route` a solution walked as
`route`.  The `len == 0` and `len == 1` special cases (lines 41-52) run
before the end-id resolution and never consult the solver. Returns
(result list, final state of the input waypoint list). -/
def solve_tsp (waypoints : List Waypoint) (matrix : Nat → Nat → Int)
    (constraints : TripConstraints) (eid : Option Nat)
    (oracle : Option (List Nat)) : List Waypoint × List Waypoint :=
  match waypoints with
  | [] => ([], [])
  | [wp] =>
      let w := scheduleWp wp 1 constraints.start_time
        (constraints.start_time + 60 * stayMinutes wp.estimated_stay_duration)
      ([w], [w])
  | _ :: _ :: _ =>
      match oracle with
      | none => greedy_fallback waypoints matrix constraints eid
      | some route =>
          let S := extractEnd matrix ((findEndIdx waypoints eid).map (· + 1))
            (extractLoop matrix route
              { wps := waypoints, ordered := [], route_order := 1
                current_time := constraints.start_time })
          (S.ordered.map (fun i => S.wps.getD i default), S.wps)

/-! ## Basic list helper lemmas -/

theorem getD_set_self {α : Type} (l : List α) (i : Nat) (a d : α) (h : i < l.length) :
    (l.set i a).getD i d = a := by
  rw [List.getD_eq_get?, List.get?_set_eq]
  rw [(List.get?_eq_some).2 ⟨h, rfl⟩]
  rfl

theorem getD_set_ne {α : Type} (l : List α) {i j : Nat} (a d : α) (h : i ≠ j) :
    (l.set i a).getD j d = l.getD j d := by
  rw [List.getD_eq_get?, List.get?_set_ne _ _ h, List.getD_eq_get?]

theorem set_getD_same {α : Type} (l : List α) (i : Nat) (d : α) (h : i < l.length) :
    l.set i (l.getD i d) = l := by
  induction l generalizing i with
  | nil => simp at h
  | cons x xs ih =>
      cases i with
      | zero => simp [List.set, List.getD]
      | succ n =>
          simp only [List.set, List.getD_eq_get?, List.get?_cons_succ]
          rw [← List.getD_eq_get?]
          rw [ih n (by simpa using h)]

/-- The indices of unvisited entries of a `visited` list, in ascending order. -/
def unvis (v : List Bool) : List Nat :=
  (List.range v.length).filter (fun i => decide (v.get? i = some false))

theorem mem_unvis {v : List Bool} {k : Nat} : k ∈ unvis v ↔ v.get? k = some false := by
  unfold unvis
  rw [List.mem_filter]
  constructor
  · rintro ⟨-, h⟩; exact of_decide_eq_true h
  · intro h
    have hk : k < v.length := by
      by_contra hk
      rw [List.get?_eq_none.2 (Nat.le_of_not_lt hk)] at h
      exact Option.noConfusion h
    exact ⟨List.mem_range.2 hk, decide_eq_true h⟩

theorem unvis_nodup (v : List Bool) : (unvis v).Nodup :=
  (List.nodup_range v.length).filter _

theorem get?_replicate_false {n k : Nat} (h : k < n) :
    (List.replicate n false).get? k = some false := by
  apply List.get?_eq_some.2
  refine ⟨by simpa using h, ?_⟩
  exact List.get_replicate false _

theorem unvis_replicate (n : Nat) : unvis (List.replicate n false) = List.range n := by
  unfold unvis
  rw [List.length_replicate]
  apply List.filter_eq_self.2
  intro a ha
  exact decide_eq_true (get?_replicate_false (List.mem_range.1 ha))

theorem unvis_set_true {v : List Bool} {b : Nat} (hb : v.get? b = some false) :
    unvis (v.set b true) = (unvis v).erase b := by
  rw [(unvis_nodup v).erase_eq_filter b]
  unfold unvis
  rw [List.length_set, List.filter_filter]
  apply List.filter_congr
  intro i _
  by_cases hib : i = b
  · subst hib
    have h1 : (v.set i true).get? i = some true := by
      rw [List.get?_set_eq, hb]
      rfl
    rw [h1]
    simp
  · rw [List.get?_set_ne _ _ (fun h => hib h.symm)]
    simp [hib]

theorem unvis_length_le (v : List Bool) : (unvis v).length ≤ v.length := by
  calc (unvis v).length ≤ (List.range v.length).length := List.length_filter_le _ _
  _ = v.length := List.length_range _

theorem unvis_lt {v : List Bool} {k : Nat} (h : k ∈ unvis v) : k < v.length := by
  rcases List.get?_eq_some.1 (mem_unvis.1 h) with ⟨h, -⟩
  exact h

/-! ## Specification of the `scanBest` scan

`scanBest dist v 0 none` returns the unvisited index of minimum distance,
ties broken by the lowest index, exactly as the strict-improvement scan of
lines 238-246 does. -/

theorem scanBest_go_spec (dist : Nat → Int) :
    ∀ (v : List Bool) (i0 : Nat) (acc : Option (Nat × Int)),
      (∀ j dj, acc = some (j, dj) → dj = dist j ∧ j < i0) →
      (scanBest dist v i0 acc = none → acc = none ∧ ∀ k, ¬ v.get? k = some false)
      ∧ (∀ b d, scanBest dist v i0 acc = some (b, d) →
          d = dist b
          ∧ (acc = some (b, d) ∨ (i0 ≤ b ∧ v.get? (b - i0) = some false))
          ∧ (∀ j dj, acc = some (j, dj) → d ≤ dj)
          ∧ (∀ j dj, acc = some (j, dj) → b ≠ j → d < dj)
          ∧ (∀ k, v.get? k = some false → d ≤ dist (i0 + k))
          ∧ (∀ k, v.get? k = some false → dist (i0 + k) = d → b ≤ i0 + k)) := by
  intro v
  induction v with
  | nil =>
      intro i0 acc hacc
      constructor
      · intro h
        exact ⟨h, fun k hk => by simp at hk⟩
      · intro b d h
        have h' : acc = some (b, d) := h
        rcases hacc b d h' with ⟨hd, -⟩
        refine ⟨hd, Or.inl h', ?_, ?_, ?_, ?_⟩
        · intro j dj hj
          rw [h'] at hj
          cases hj
          exact le_refl _
        · intro j dj hj hbj
          rw [h'] at hj
          cases hj
          exact absurd rfl hbj
        · intro k hk; simp at hk
        · intro k hk; simp at hk
  | cons c rest ih =>
      intro i0 acc hacc
      cases c with
      | true =>
          have hstep : scanBest dist (true :: rest) i0 acc = scanBest dist rest (i0 + 1) acc := rfl
          have hacc' : ∀ j dj, acc = some (j, dj) → dj = dist j ∧ j < i0 + 1 := by
            intro j dj hj
            rcases hacc j dj hj with ⟨h1, h2⟩
            exact ⟨h1, Nat.lt_succ_of_lt h2⟩
          rcases ih (i0 + 1) acc hacc' with ⟨ihn, ihs⟩
          constructor
          · intro h
            rw [hstep] at h
            rcases ihn h with ⟨h1, h2⟩
            refine ⟨h1, ?_⟩
            intro k
            cases k with
            | zero => simp
            | succ m => exact h2 m
          · intro b d h
            rw [hstep] at h
            rcases ihs b d h with ⟨hd, hprov, haccmin, hstrict, hcand, htie⟩
            refine ⟨hd, ?_, haccmin, hstrict, ?_, ?_⟩
            · rcases hprov with h1 | ⟨h1, h2⟩
              · exact Or.inl h1
              · refine Or.inr ⟨Nat.le_of_succ_le h1, ?_⟩
                have : b - i0 = (b - (i0 + 1)) + 1 := by omega
                rw [this]
                exact h2
            · intro k hk
              cases k with
              | zero => simp at hk
              | succ m =>
                  have := hcand m hk
                  have harith : i0 + 1 + m = i0 + (m + 1) := by omega
                  rwa [harith] at this
            · intro k hk hdk
              cases k with
              | zero => simp at hk
              | succ m =>
                  have harith : i0 + 1 + m = i0 + (m + 1) := by omega
                  have := htie m hk (by rwa [harith])
                  omega
      | false =>
          rcases hacceq : acc with _ | ⟨j0, dj0⟩
          · -- acc is still empty: the head becomes the new best
            subst hacceq
            have hstep : scanBest dist (false :: rest) i0 none
                = scanBest dist rest (i0 + 1) (some (i0, dist i0)) := rfl
            have hAval : ∀ j dj, (some (i0, dist i0) : Option (Nat × Int)) = some (j, dj) →
                dj = dist j ∧ j < i0 + 1 := by
              intro j dj hj
              cases hj
              exact ⟨rfl, Nat.lt_succ_self _⟩
            rcases ih (i0 + 1) _ hAval with ⟨ihn, ihs⟩
            constructor
            · intro h
              rw [hstep] at h
              rcases ihn h with ⟨h1, -⟩
              cases h1
            · intro b d h
              rw [hstep] at h
              rcases ihs b d h with ⟨hd, hprov, hAmin, hAstrict, hcand, htie⟩
              refine ⟨hd, ?_, ?_, ?_, ?_, ?_⟩
              · rcases hprov with h1 | ⟨h1, h2⟩
                · cases h1
                  refine Or.inr ⟨le_refl _, ?_⟩
                  rw [Nat.sub_self]
                  rfl
                · refine Or.inr ⟨Nat.le_of_succ_le h1, ?_⟩
                  have e : b - i0 = (b - (i0 + 1)) + 1 := by omega
                  rw [e]
                  exact h2
              · intro j dj hj; cases hj
              · intro j dj hj _; cases hj
              · intro k hk
                cases k with
                | zero => simpa using hAmin i0 (dist i0) rfl
                | succ m =>
                    have hc := hcand m hk
                    have e : i0 + 1 + m = i0 + (m + 1) := by omega
                    rwa [e] at hc
              · intro k hk hdk
                cases k with
                | zero =>
                    have hdk0 : dist i0 = d := by simpa using hdk
                    by_cases hbi : b = i0
                    · omega
                    · have := hAstrict i0 (dist i0) rfl hbi
                      omega
                | succ m =>
                    have e : i0 + 1 + m = i0 + (m + 1) := by omega
                    have := htie m hk (by rwa [e])
                    omega
          · -- acc already holds a best candidate
            subst hacceq
            rcases hacc j0 dj0 rfl with ⟨hdj0, hj0lt⟩
            by_cases hlt : dist i0 < dj0
            · -- strict improvement: the head replaces the accumulator
              have hstep : scanBest dist (false :: rest) i0 (some (j0, dj0))
                  = scanBest dist rest (i0 + 1)
                      (if dist i0 < dj0 then some (i0, dist i0) else some (j0, dj0)) := rfl
              rw [if_pos hlt] at hstep
              have hAval : ∀ j dj, (some (i0, dist i0) : Option (Nat × Int)) = some (j, dj) →
                  dj = dist j ∧ j < i0 + 1 := by
                intro j dj hj
                cases hj
                exact ⟨rfl, Nat.lt_succ_self _⟩
              rcases ih (i0 + 1) _ hAval with ⟨ihn, ihs⟩
              constructor
              · intro h
                rw [hstep] at h
                rcases ihn h with ⟨h1, -⟩
                cases h1
              · intro b d h
                rw [hstep] at h
                rcases ihs b d h with ⟨hd, hprov, hAmin, hAstrict, hcand, htie⟩
                refine ⟨hd, ?_, ?_, ?_, ?_, ?_⟩
                · rcases hprov with h1 | ⟨h1, h2⟩
                  · cases h1
                    refine Or.inr ⟨le_refl _, ?_⟩
                    rw [Nat.sub_self]
                    rfl
                  · refine Or.inr ⟨Nat.le_of_succ_le h1, ?_⟩
                    have e : b - i0 = (b - (i0 + 1)) + 1 := by omega
                    rw [e]
                    exact h2
                · intro j dj hj
                  cases hj
                  have := hAmin i0 (dist i0) rfl
                  omega
                · intro j dj hj _
                  cases hj
                  have := hAmin i0 (dist i0) rfl
                  omega
                · intro k hk
                  cases k with
                  | zero => simpa using hAmin i0 (dist i0) rfl
                  | succ m =>
                      have hc := hcand m hk
                      have e : i0 + 1 + m = i0 + (m + 1) := by omega
                      rwa [e] at hc
                · intro k hk hdk
                  cases k with
                  | zero =>
                      have hdk0 : dist i0 = d := by simpa using hdk
                      by_cases hbi : b = i0
                      · omega
                      · have := hAstrict i0 (dist i0) rfl hbi
                        omega
                  | succ m =>
                      have e : i0 + 1 + m = i0 + (m + 1) := by omega
                      have := htie m hk (by rwa [e])
                      omega
            · -- no improvement: the accumulator is kept
              have hstep : scanBest dist (false :: rest) i0 (some (j0, dj0))
                  = scanBest dist rest (i0 + 1)
                      (if dist i0 < dj0 then some (i0, dist i0) else some (j0, dj0)) := rfl
              rw [if_neg hlt] at hstep
              have hAval : ∀ j dj, (some (j0, dj0) : Option (Nat × Int)) = some (j, dj) →
                  dj = dist j ∧ j < i0 + 1 := by
                intro j dj hj
                cases hj
                exact ⟨hdj0, Nat.lt_succ_of_lt hj0lt⟩
              rcases ih (i0 + 1) _ hAval with ⟨ihn, ihs⟩
              constructor
              · intro h
                rw [hstep] at h
                rcases ihn h with ⟨h1, -⟩
                cases h1
              · intro b d h
                rw [hstep] at h
                rcases ihs b d h with ⟨hd, hprov, hAmin, hAstrict, hcand, htie⟩
                refine ⟨hd, ?_, ?_, ?_, ?_, ?_⟩
                · rcases hprov with h1 | ⟨h1, h2⟩
                  · exact Or.inl h1
                  · refine Or.inr ⟨Nat.le_of_succ_le h1, ?_⟩
                    have e : b - i0 = (b - (i0 + 1)) + 1 := by omega
                    rw [e]
                    exact h2
                · intro j dj hj
                  cases hj
                  exact hAmin j0 dj0 rfl
                · intro j dj hj hbj
                  cases hj
                  exact hAstrict j0 dj0 rfl hbj
                · intro k hk
                  cases k with
                  | zero =>
                      have h1 := hAmin j0 dj0 rfl
                      have h2 := le_of_not_lt hlt
                      simpa using le_trans h1 h2
                  | succ m =>
                      have hc := hcand m hk
                      have e : i0 + 1 + m = i0 + (m + 1) := by omega
                      rwa [e] at hc
                · intro k hk hdk
                  cases k with
                  | zero =>
                      have hdk0 : dist i0 = d := by simpa using hdk
                      have h1 := hAmin j0 dj0 rfl
                      have h2 := le_of_not_lt hlt
                      by_cases hbj : b = j0
                      · omega
                      · have := hAstrict j0 dj0 rfl hbj
                        omega
                  | succ m =>
                      have e : i0 + 1 + m = i0 + (m + 1) := by omega
                      have := htie m hk (by rwa [e])
                      omega

/-- `scanBest` with the initial accumulator returns `none` only when every
index is visited. -/
theorem scanBest_none_spec {dist : Nat → Int} {v : List Bool}
    (h : scanBest dist v 0 none = none) : ∀ k, ¬ v.get? k = some false :=
  ((scanBest_go_spec dist v 0 none (by intro j dj hj; cases hj)).1 h).2

/-- `scanBest` with the initial accumulator returns the unvisited index with
the minimal distance, ties broken by the lowest index, paired with its
distance. -/
theorem scanBest_some_spec {dist : Nat → Int} {v : List Bool} {b : Nat} {d : Int}
    (h : scanBest dist v 0 none = some (b, d)) :
    d = dist b ∧ v.get? b = some false
    ∧ (∀ k, v.get? k = some false → d ≤ dist k)
    ∧ (∀ k, v.get? k = some false → dist k = d → b ≤ k) := by
  rcases (scanBest_go_spec dist v 0 none (by intro j dj hj; cases hj)).2 b d h with
    ⟨hd, hprov, -, -, hcand, htie⟩
  rcases hprov with h1 | ⟨-, h2⟩
  · cases h1
  · refine ⟨hd, by simpa using h2, ?_, ?_⟩
    · intro k hk
      simpa using hcand k hk
    · intro k hk hdk
      simpa using htie k hk (by simpa using hdk)

/-! ## Denotation of the fallback loop

The loop of lines 236-267 is described by three pure recursions: `nnOrder`
(the visit order the nearest-neighbour scan produces), `schedList` (the
arrival/departure stamps along a visit order: exactly the recurrence
`arrival = previous departure + travel`, `departure = arrival + 60 * stay`,
seeded with the origin node `0` and `start_time`), and `writeSched` (the
accumulated in-place field updates). -/

/-- Visit order chosen by repeating the nearest-unvisited scan `n` times from
position `pos`. -/
def nnOrder (matrix : Nat → Nat → Int) : Nat → List Bool → Nat → List Nat
  | 0, _, _ => []
  | n + 1, visited, pos =>
      match scanBest (fun i => matrix pos (i + 1)) visited 0 none with
      | none => []
      | some (b, _) => b :: nnOrder matrix n (visited.set b true) (b + 1)

/-- Timestamps along a visit order: element `(b, arr, dep)` schedules waypoint
index `b` with `arr = t + matrix node (b+1)` and `dep = arr + 60 * st b`,
continuing from node `b+1` at time `dep`. -/
def schedList (st : Nat → Int) (matrix : Nat → Nat → Int) :
    List Nat → Nat → Int → List (Nat × Int × Int)
  | [], _, _ => []
  | b :: rest, node, t =>
      (b, t + matrix node (b + 1), t + matrix node (b + 1) + 60 * st b)
        :: schedList st matrix rest (b + 1) (t + matrix node (b + 1) + 60 * st b)

/-- The node the chain ends on. -/
def chainEndNode : List Nat → Nat → Nat
  | [], node => node
  | b :: rest, _ => chainEndNode rest (b + 1)

/-- The time the chain ends at (the last departure, or `t` if empty). -/
def chainEndTime (st : Nat → Int) (matrix : Nat → Nat → Int) :
    List Nat → Nat → Int → Int
  | [], _, t => t
  | b :: rest, node, t =>
      chainEndTime st matrix rest (b + 1) (t + matrix node (b + 1) + 60 * st b)

/-- Mark a list of indices visited. -/
def markAll : List Bool → List Nat → List Bool
  | v, [] => v
  | v, b :: rest => markAll (v.set b true) rest

/-- Replay a list of schedule writes `(index, arrival, departure)` with
consecutive order numbers starting at `o`. -/
def writeSched (wps : List Waypoint) : List (Nat × Int × Int) → Nat → List Waypoint
  | [], _ => wps
  | (b, a, d) :: rest, o =>
      writeSched (wps.set b (scheduleWp (wps.getD b default) o a d)) rest (o + 1)

/-- The stay-minutes function read off a waypoint heap. -/
def stFun (wps : List Waypoint) (i : Nat) : Int :=
  stayMinutes ((wps.getD i default).estimated_stay_duration)

theorem stFun_set_scheduleWp (wps : List Waypoint) (b o : Nat) (a d : Int) :
    stFun (wps.set b (scheduleWp (wps.getD b default) o a d)) = stFun wps := by
  funext i
  by_cases hib : i = b
  · subst hib
    by_cases hb : i < wps.length
    · unfold stFun
      rw [getD_set_self _ _ _ _ hb]
      rfl
    · rw [List.set_eq_of_length_le (le_of_not_lt hb)]
  · unfold stFun
    rw [getD_set_ne _ _ _ (fun h => hib h.symm)]

theorem writeSched_length (tr : List (Nat × Int × Int)) :
    ∀ (wps : List Waypoint) (o : Nat), (writeSched wps tr o).length = wps.length := by
  induction tr with
  | nil => intro wps o; rfl
  | cons q rest ih =>
      intro wps o
      rcases q with ⟨b, a, d⟩
      rw [writeSched, ih, List.length_set]

theorem markAll_length (l : List Nat) :
    ∀ (v : List Bool), (markAll v l).length = v.length := by
  induction l with
  | nil => intro v; rfl
  | cons b rest ih =>
      intro v
      rw [markAll, ih, List.length_set]

/-- Master lemma: the fallback loop is exactly its denotation. -/
theorem fbLoop_denote (matrix : Nat → Nat → Int) :
    ∀ (n : Nat) (ordv : Nat) (s : FbState),
      fbLoop matrix n ordv s =
        { wps := writeSched s.wps
            (schedList (stFun s.wps) matrix (nnOrder matrix n s.visited s.current_node)
              s.current_node s.current_time) ordv
          visited := markAll s.visited (nnOrder matrix n s.visited s.current_node)
          ordered := s.ordered ++ nnOrder matrix n s.visited s.current_node
          current_node := chainEndNode (nnOrder matrix n s.visited s.current_node) s.current_node
          current_time := chainEndTime (stFun s.wps) matrix
            (nnOrder matrix n s.visited s.current_node) s.current_node s.current_time } := by
  intro n
  induction n with
  | zero =>
      intro ordv s
      simp [fbLoop, nnOrder, writeSched, markAll, schedList, chainEndNode, chainEndTime]
  | succ n ih =>
      intro ordv s
      rcases hscan : scanBest (fun i => matrix s.current_node (i + 1)) s.visited 0 none with
        _ | ⟨b, bd⟩
      · have hloop : fbLoop matrix (n + 1) ordv s = s := by
          show (match fbStep matrix ordv s with
                | none => s
                | some s2 => fbLoop matrix n (ordv + 1) s2) = s
          unfold fbStep
          rw [hscan]
        have hnn : nnOrder matrix (n + 1) s.visited s.current_node = [] := by
          unfold nnOrder
          rw [hscan]
        rw [hloop, hnn]
        simp [writeSched, markAll, schedList, chainEndNode, chainEndTime]
      · have hbd : bd = matrix s.current_node (b + 1) := by
          have h := (scanBest_some_spec hscan).1
          simpa using h
        have hstep : fbStep matrix ordv s = some
            { wps := s.wps.set b (scheduleWp (s.wps.getD b default) ordv
                (s.current_time + bd)
                (s.current_time + bd
                  + 60 * stayMinutes ((s.wps.getD b default).estimated_stay_duration)))
              visited := s.visited.set b true
              ordered := s.ordered ++ [b]
              current_node := b + 1
              current_time := s.current_time + bd
                + 60 * stayMinutes ((s.wps.getD b default).estimated_stay_duration) } := by
          unfold fbStep
          rw [hscan]
        have hloop : fbLoop matrix (n + 1) ordv s = fbLoop matrix n (ordv + 1)
            { wps := s.wps.set b (scheduleWp (s.wps.getD b default) ordv
                (s.current_time + bd)
                (s.current_time + bd
                  + 60 * stayMinutes ((s.wps.getD b default).estimated_stay_duration)))
              visited := s.visited.set b true
              ordered := s.ordered ++ [b]
              current_node := b + 1
              current_time := s.current_time + bd
                + 60 * stayMinutes ((s.wps.getD b default).estimated_stay_duration) } := by
          show (match fbStep matrix ordv s with
                | none => s
                | some s2 => fbLoop matrix n (ordv + 1) s2) = _
          rw [hstep]
        have hnn : nnOrder matrix (n + 1) s.visited s.current_node
            = b :: nnOrder matrix n (s.visited.set b true) (b + 1) := by
          conv_lhs => unfold nnOrder
          rw [hscan]
        subst hbd
        rw [hloop, ih, hnn]
        simp only [schedList, writeSched, markAll, chainEndNode, chainEndTime,
          stFun_set_scheduleWp]
        simp [FbState.mk.injEq, List.append_assoc, stFun]

/-! ## Properties of the nearest-neighbour visit order -/

/-- Specification relation, following the spec's words for the fallback
heuristic: starting at position `pos` with visited flags `visited`, the list
is a greedy nearest-neighbour run — each selected stop is unvisited, has
minimum matrix travel time from the current position, ties are broken by the
lowest stop index, and the position then moves to that stop. -/
inductive NNRun (matrix : Nat → Nat → Int) : Nat → List Bool → List Nat → Prop
  | nil (pos : Nat) (visited : List Bool) : NNRun matrix pos visited []
  | step (pos : Nat) (visited : List Bool) (b : Nat) (rest : List Nat)
      (hb : visited.get? b = some false)
      (hmin : ∀ k, visited.get? k = some false → matrix pos (b + 1) ≤ matrix pos (k + 1))
      (htie : ∀ k, visited.get? k = some false → matrix pos (k + 1) = matrix pos (b + 1) → b ≤ k)
      (hrest : NNRun matrix (b + 1) (visited.set b true) rest) :
      NNRun matrix pos visited (b :: rest)

theorem nnOrder_NNRun (matrix : Nat → Nat → Int) :
    ∀ (n : Nat) (v : List Bool) (pos : Nat), NNRun matrix pos v (nnOrder matrix n v pos) := by
  intro n
  induction n with
  | zero =>
      intro v pos
      exact NNRun.nil pos v
  | succ n ih =>
      intro v pos
      rcases hscan : scanBest (fun i => matrix pos (i + 1)) v 0 none with _ | ⟨b, bd⟩
      · have hnn : nnOrder matrix (n + 1) v pos = [] := by
          conv_lhs => unfold nnOrder
          rw [hscan]
        rw [hnn]
        exact NNRun.nil pos v
      · have hnn : nnOrder matrix (n + 1) v pos
            = b :: nnOrder matrix n (v.set b true) (b + 1) := by
          conv_lhs => unfold nnOrder
          rw [hscan]
        rw [hnn]
        rcases scanBest_some_spec hscan with ⟨hbd, hb, hmin, htie⟩
        refine NNRun.step pos v b _ hb ?_ ?_ (ih _ _)
        · intro k hk
          have := hmin k hk
          rw [hbd] at this
          exact this
        · intro k hk he
          exact htie k hk (by rw [← hbd] at he; exact he)

theorem nnOrder_perm (matrix : Nat → Nat → Int) :
    ∀ (n : Nat) (v : List Bool) (pos : Nat),
      List.Perm (nnOrder matrix n v pos ++ unvis (markAll v (nnOrder matrix n v pos)))
        (unvis v) := by
  intro n
  induction n with
  | zero =>
      intro v pos
      simp [nnOrder, markAll]
  | succ n ih =>
      intro v pos
      rcases hscan : scanBest (fun i => matrix pos (i + 1)) v 0 none with _ | ⟨b, bd⟩
      · have hnn : nnOrder matrix (n + 1) v pos = [] := by
          conv_lhs => unfold nnOrder
          rw [hscan]
        rw [hnn]
        simp [markAll]
      · have hnn : nnOrder matrix (n + 1) v pos
            = b :: nnOrder matrix n (v.set b true) (b + 1) := by
          conv_lhs => unfold nnOrder
          rw [hscan]
        rw [hnn]
        have hb : v.get? b = some false := (scanBest_some_spec hscan).2.1
        have h2 := ih (v.set b true) (b + 1)
        rw [unvis_set_true hb] at h2
        simp only [markAll, List.cons_append]
        exact (h2.cons b).trans (List.perm_cons_erase (mem_unvis.2 hb)).symm

theorem nnOrder_length (matrix : Nat → Nat → Int) :
    ∀ (n : Nat) (v : List Bool) (pos : Nat),
      (nnOrder matrix n v pos).length = min n (unvis v).length := by
  intro n
  induction n with
  | zero =>
      intro v pos
      simp [nnOrder]
  | succ n ih =>
      intro v pos
      rcases hscan : scanBest (fun i => matrix pos (i + 1)) v 0 none with _ | ⟨b, bd⟩
      · have hnn : nnOrder matrix (n + 1) v pos = [] := by
          conv_lhs => unfold nnOrder
          rw [hscan]
        have hemp : unvis v = [] := by
          apply List.eq_nil_iff_forall_not_mem.2
          intro k hk
          exact scanBest_none_spec hscan k (mem_unvis.1 hk)
        rw [hnn, hemp]
        simp
      · have hnn : nnOrder matrix (n + 1) v pos
            = b :: nnOrder matrix n (v.set b true) (b + 1) := by
          conv_lhs => unfold nnOrder
          rw [hscan]
        have hb : v.get? b = some false := (scanBest_some_spec hscan).2.1
        rw [hnn]
        simp only [List.length_cons]
        rw [ih (v.set b true) (b + 1), unvis_set_true hb,
          List.length_erase_of_mem (mem_unvis.2 hb)]
        have hpos : 0 < (unvis v).length :=
          List.length_pos.2 (List.ne_nil_of_mem (mem_unvis.2 hb))
        omega

theorem nnOrder_subset {matrix : Nat → Nat → Int} {n : Nat} {v : List Bool} {pos : Nat}
    {b : Nat} (hb : b ∈ nnOrder matrix n v pos) : b ∈ unvis v :=
  (nnOrder_perm matrix n v pos).mem_iff.1 (List.mem_append_left _ hb)

theorem nnOrder_nodup (matrix : Nat → Nat → Int) (n : Nat) (v : List Bool) (pos : Nat) :
    (nnOrder matrix n v pos).Nodup := by
  have h := ((nnOrder_perm matrix n v pos).nodup_iff).2 (unvis_nodup v)
  exact h.of_append_left

/-! ## Read-back lemmas for the replayed schedule writes -/

theorem writeSched_frame (tr : List (Nat × Int × Int)) :
    ∀ (wps : List Waypoint) (o : Nat) (i : Nat), i ∉ tr.map (fun q => q.1) →
      (writeSched wps tr o).getD i default = wps.getD i default := by
  induction tr with
  | nil => intro wps o i _; rfl
  | cons q rest ih =>
      intro wps o i hi
      rcases q with ⟨b, a, d⟩
      simp only [List.map_cons, List.mem_cons] at hi
      push_neg at hi
      rw [writeSched, ih _ _ _ hi.2]
      exact getD_set_ne _ _ _ (fun h => hi.1 h.symm)

theorem writeSched_id_stay (tr : List (Nat × Int × Int)) :
    ∀ (wps : List Waypoint) (o : Nat) (i : Nat),
      ((writeSched wps tr o).getD i default).id = (wps.getD i default).id
      ∧ ((writeSched wps tr o).getD i default).estimated_stay_duration
          = (wps.getD i default).estimated_stay_duration := by
  induction tr with
  | nil => intro wps o i; exact ⟨rfl, rfl⟩
  | cons q rest ih =>
      intro wps o i
      rcases q with ⟨b, a, d⟩
      rw [writeSched]
      rcases ih (wps.set b (scheduleWp (wps.getD b default) o a d)) (o + 1) i with ⟨h1, h2⟩
      rw [h1, h2]
      by_cases hib : i = b
      · subst hib
        by_cases hlt : i < wps.length
        · rw [getD_set_self _ _ _ _ hlt]
          exact ⟨rfl, rfl⟩
        · rw [List.set_eq_of_length_le (le_of_not_lt hlt)]
          exact ⟨rfl, rfl⟩
      · rw [getD_set_ne _ _ _ (fun h => hib h.symm)]
        exact ⟨rfl, rfl⟩

theorem writeSched_times (tr : List (Nat × Int × Int)) :
    ∀ (wps : List Waypoint) (o : Nat),
      (tr.map (fun q => q.1)).Nodup → (∀ q ∈ tr, q.1 < wps.length) →
      tr.map (fun q => (((writeSched wps tr o).getD q.1 default).arrival_time,
          ((writeSched wps tr o).getD q.1 default).departure_time))
        = tr.map (fun q => (some q.2.1, some q.2.2)) := by
  induction tr with
  | nil => intro wps o _ _; rfl
  | cons q rest ih =>
      intro wps o hnd hb
      rcases q with ⟨b, a, d⟩
      have hbl : b < wps.length := hb _ (List.mem_cons_self _ _)
      simp only [List.map_cons, List.nodup_cons] at hnd
      obtain ⟨hbrest, hndrest⟩ := hnd
      rw [writeSched]
      simp only [List.map_cons]
      have hhead : (writeSched (wps.set b (scheduleWp (wps.getD b default) o a d)) rest
          (o + 1)).getD b default = scheduleWp (wps.getD b default) o a d := by
        rw [writeSched_frame rest _ _ b hbrest, getD_set_self _ _ _ _ hbl]
      rw [hhead]
      have htail := ih (wps.set b (scheduleWp (wps.getD b default) o a d)) (o + 1) hndrest
        (by
          intro q hq
          rw [List.length_set]
          exact hb q (List.mem_cons_of_mem _ hq))
      rw [htail]
      rfl

theorem writeSched_orders (tr : List (Nat × Int × Int)) :
    ∀ (wps : List Waypoint) (o : Nat),
      (tr.map (fun q => q.1)).Nodup → (∀ q ∈ tr, q.1 < wps.length) →
      tr.map (fun q => ((writeSched wps tr o).getD q.1 default).order)
        = (List.range tr.length).map (fun p => some (o + p)) := by
  induction tr with
  | nil => intro wps o _ _; rfl
  | cons q rest ih =>
      intro wps o hnd hb
      rcases q with ⟨b, a, d⟩
      have hbl : b < wps.length := hb _ (List.mem_cons_self _ _)
      simp only [List.map_cons, List.nodup_cons] at hnd
      obtain ⟨hbrest, hndrest⟩ := hnd
      rw [writeSched]
      simp only [List.map_cons, List.length_cons]
      have hhead : (writeSched (wps.set b (scheduleWp (wps.getD b default) o a d)) rest
          (o + 1)).getD b default = scheduleWp (wps.getD b default) o a d := by
        rw [writeSched_frame rest _ _ b hbrest, getD_set_self _ _ _ _ hbl]
      rw [hhead]
      have htail := ih (wps.set b (scheduleWp (wps.getD b default) o a d)) (o + 1) hndrest
        (by
          intro q hq
          rw [List.length_set]
          exact hb q (List.mem_cons_of_mem _ hq))
      rw [htail, List.range_succ_eq_map]
      simp only [List.map_cons, List.map_map]
      have hfun : List.map (fun p => some (o + 1 + p)) (List.range rest.length)
          = List.map ((fun p => some (o + p)) ∘ Nat.succ) (List.range rest.length) := by
        apply List.map_congr_left
        intro p hp
        show some (o + 1 + p) = some (o + (p + 1))
        congr 1
        omega
      rw [hfun]
      congr 1

theorem writeSched_append (tr1 tr2 : List (Nat × Int × Int)) :
    ∀ (wps : List Waypoint) (o : Nat),
      writeSched wps (tr1 ++ tr2) o = writeSched (writeSched wps tr1 o) tr2 (o + tr1.length) := by
  induction tr1 with
  | nil =>
      intro wps o
      simp [writeSched]
  | cons q rest ih =>
      intro wps o
      rcases q with ⟨b, a, d⟩
      have e : writeSched wps (((b, a, d) :: rest) ++ tr2) o
          = writeSched (wps.set b (scheduleWp (wps.getD b default) o a d)) (rest ++ tr2)
              (o + 1) := rfl
      rw [e, ih]
      have e2 : o + 1 + rest.length = o + (rest.length + 1) := by omega
      rw [e2]
      rfl

/-! ## Properties of the schedule timestamps -/

theorem schedList_fst (st : Nat → Int) (matrix : Nat → Nat → Int) :
    ∀ (l : List Nat) (node : Nat) (t : Int),
      (schedList st matrix l node t).map (fun q => q.1) = l := by
  intro l
  induction l with
  | nil => intro node t; rfl
  | cons b rest ih =>
      intro node t
      simp only [schedList, List.map_cons]
      rw [ih]

theorem schedList_length (st : Nat → Int) (matrix : Nat → Nat → Int) :
    ∀ (l : List Nat) (node : Nat) (t : Int),
      (schedList st matrix l node t).length = l.length := by
  intro l
  induction l with
  | nil => intro node t; rfl
  | cons b rest ih =>
      intro node t
      simp only [schedList, List.length_cons]
      rw [ih]

theorem schedList_append (st : Nat → Int) (matrix : Nat → Nat → Int) :
    ∀ (l1 l2 : List Nat) (node : Nat) (t : Int),
      schedList st matrix (l1 ++ l2) node t
        = schedList st matrix l1 node t
          ++ schedList st matrix l2 (chainEndNode l1 node) (chainEndTime st matrix l1 node t) := by
  intro l1
  induction l1 with
  | nil => intro l2 node t; rfl
  | cons b rest ih =>
      intro l2 node t
      have e : schedList st matrix ((b :: rest) ++ l2) node t
          = (b, t + matrix node (b + 1), t + matrix node (b + 1) + 60 * st b)
            :: schedList st matrix (rest ++ l2) (b + 1)
                (t + matrix node (b + 1) + 60 * st b) := rfl
      rw [e, ih]
      rfl

theorem schedList_chain (st : Nat → Int) (matrix : Nat → Nat → Int)
    (hm : ∀ i j, (0 : Int) ≤ matrix i j) :
    ∀ (l : List Nat) (node : Nat) (t : Int) (p : Nat),
      p + 1 < l.length →
      ((schedList st matrix l node t).getD p (0, 0, 0)).2.2
        ≤ ((schedList st matrix l node t).getD (p + 1) (0, 0, 0)).2.1 := by
  intro l
  induction l with
  | nil =>
      intro node t p hp
      simp at hp
  | cons b rest ih =>
      intro node t p hp
      cases p with
      | zero =>
          cases rest with
          | nil => simp at hp
          | cons c rest2 =>
              show (((b, _, _) :: schedList st matrix (c :: rest2) (b + 1) _).getD 0 _).2.2 ≤ _
              simp only [schedList, List.getD_cons_zero, List.getD_cons_succ]
              have := hm (b + 1) (c + 1)
              omega
      | succ p2 =>
          simp only [schedList, List.getD_cons_succ]
          apply ih
          simpa using hp

/-! ## The fallback's final state, denotationally -/

/-- The visit order the fallback loop produces before the optional end append.
Note it does not depend on the time budget (`start`/`end_time`) at all. -/
def fbDelta (waypoints : List Waypoint) (matrix : Nat → Nat → Int) (eid : Option Nat) :
    List Nat :=
  nnOrder matrix (waypoints.length - (if (findEndIdx waypoints eid).isSome then 1 else 0))
    (initVisited waypoints eid) 0

theorem fallbackFinal_spec (waypoints : List Waypoint) (matrix : Nat → Nat → Int)
    (start : Int) (eid : Option Nat) :
    (fallbackFinal waypoints matrix start eid).ordered
        = fbDelta waypoints matrix eid ++ (findEndIdx waypoints eid).toList
    ∧ (fallbackFinal waypoints matrix start eid).wps
        = writeSched waypoints
            (schedList (stFun waypoints) matrix
              (fbDelta waypoints matrix eid ++ (findEndIdx waypoints eid).toList) 0 start) 1 := by
  unfold fallbackFinal fbDelta
  rcases he : findEndIdx waypoints eid with _ | e
  · simp only [he, Option.isSome_none, Bool.false_eq_true, if_false, Nat.sub_zero,
      Option.toList, List.append_nil]
    rw [fbLoop_denote]
    exact ⟨by simp, rfl⟩
  · simp only [he, Option.isSome_some, if_true, Option.toList]
    rw [fbLoop_denote]
    simp only [fbAppendEnd]
    constructor
    · simp
    · rw [schedList_append, writeSched_append]
      simp only [schedList, writeSched]
      have hstay : stayMinutes (((writeSched waypoints
          (schedList (stFun waypoints) matrix
            (nnOrder matrix (waypoints.length - 1) (initVisited waypoints eid) 0) 0 start)
          1).getD e default).estimated_stay_duration) = stFun waypoints e := by
        rw [(writeSched_id_stay _ _ _ _).2]
        rfl
      rw [hstay]
      rw [schedList_length]
      have hlen : (List.nil ++ nnOrder matrix (waypoints.length - 1)
          (initVisited waypoints eid) 0).length + 1
          = 1 + (nnOrder matrix (waypoints.length - 1) (initVisited waypoints eid) 0).length := by
        simp [Nat.add_comm]
      rw [hlen]

/-! ## Denotation of the solution-extraction loop -/

/-- The trace of the extraction loop over a solver route: for each node `> 0`
it emits `(waypoint index, arrival, departure)`; between consecutive route
nodes the travel time is added; the second component is the final
`current_time`. -/
def extTrace (st : Nat → Int) (matrix : Nat → Nat → Int) :
    List Nat → Int → List (Nat × Int × Int) × Int
  | [], t => ([], t)
  | node :: rest, t =>
      let t2 := if 0 < node then t + 60 * st (node - 1) else t
      let t3 := match rest with
        | [] => t2
        | next :: _ => t2 + matrix node next
      let r := extTrace st matrix rest t3
      (if 0 < node then (node - 1, t, t2) :: r.1 else r.1, r.2)


theorem extractLoop_denote (matrix : Nat → Nat → Int) :
    ∀ (route : List Nat) (s : ExtractState),
      extractLoop matrix route s =
        { wps := writeSched s.wps
            (extTrace (stFun s.wps) matrix route s.current_time).1 s.route_order
          ordered := s.ordered
            ++ (extTrace (stFun s.wps) matrix route s.current_time).1.map (fun q => q.1)
          route_order := s.route_order
            + (extTrace (stFun s.wps) matrix route s.current_time).1.length
          current_time := (extTrace (stFun s.wps) matrix route s.current_time).2 } := by
  intro route
  induction route with
  | nil =>
      intro s
      simp [extractLoop, extTrace, writeSched]
  | cons node rest ih =>
      intro s
      cases node with
      | zero =>
          cases rest with
          | nil =>
              have hstep : extractLoop matrix [0] s = s := rfl
              have htr : extTrace (stFun s.wps) matrix [0] s.current_time
                  = ([], s.current_time) := rfl
              rw [hstep, htr]
              simp [writeSched]
          | cons next rest2 =>
              have hstep : extractLoop matrix (0 :: next :: rest2) s
                  = extractLoop matrix (next :: rest2)
                    { wps := s.wps
                      ordered := s.ordered
                      route_order := s.route_order
                      current_time := s.current_time + matrix 0 next } := rfl
              have htr : extTrace (stFun s.wps) matrix (0 :: next :: rest2) s.current_time
                  = ((extTrace (stFun s.wps) matrix (next :: rest2)
                      (s.current_time + matrix 0 next)).1,
                     (extTrace (stFun s.wps) matrix (next :: rest2)
                      (s.current_time + matrix 0 next)).2) := rfl
              rw [hstep, ih, htr]
      | succ m =>
          cases rest with
          | nil =>
              have hstep : extractLoop matrix [m + 1] s
                  = { wps := s.wps.set m (scheduleWp (s.wps.getD m default)
                        s.route_order s.current_time
                        (s.current_time
                          + 60 * stayMinutes ((s.wps.getD m default).estimated_stay_duration)))
                      ordered := s.ordered ++ [m]
                      route_order := s.route_order + 1
                      current_time := s.current_time
                        + 60 * stayMinutes ((s.wps.getD m default).estimated_stay_duration) } := by
                unfold extractLoop
                simp
                rfl
              have htr : extTrace (stFun s.wps) matrix [m + 1] s.current_time
                  = ([(m, s.current_time, s.current_time + 60 * stFun s.wps m)],
                     s.current_time + 60 * stFun s.wps m) := by
                unfold extTrace
                simp
                exact ⟨rfl, rfl⟩
              rw [hstep, htr]
              have hst : stFun s.wps m
                  = stayMinutes ((s.wps.getD m default).estimated_stay_duration) := rfl
              rw [hst]
              simp [writeSched]
          | cons next rest2 =>
              have hstep : extractLoop matrix ((m + 1) :: next :: rest2) s
                  = extractLoop matrix (next :: rest2)
                    { wps := s.wps.set m (scheduleWp (s.wps.getD m default)
                        s.route_order s.current_time
                        (s.current_time
                          + 60 * stayMinutes ((s.wps.getD m default).estimated_stay_duration)))
                      ordered := s.ordered ++ [m]
                      route_order := s.route_order + 1
                      current_time := s.current_time
                        + 60 * stayMinutes ((s.wps.getD m default).estimated_stay_duration)
                        + matrix (m + 1) next } := by
                conv_lhs => unfold extractLoop
                simp
              have htr : extTrace (stFun s.wps) matrix ((m + 1) :: next :: rest2) s.current_time
                  = ((m, s.current_time, s.current_time + 60 * stFun s.wps m)
                      :: (extTrace (stFun s.wps) matrix (next :: rest2)
                          (s.current_time + 60 * stFun s.wps m + matrix (m + 1) next)).1,
                     (extTrace (stFun s.wps) matrix (next :: rest2)
                          (s.current_time + 60 * stFun s.wps m + matrix (m + 1) next)).2) := by
                conv_lhs => unfold extTrace
                simp
              have hst : stFun s.wps m
                  = stayMinutes ((s.wps.getD m default).estimated_stay_duration) := rfl
              rw [hstep, ih, htr, hst]
              simp only [stFun_set_scheduleWp, List.map_cons, List.length_cons, writeSched]
              simp [ExtractState.mk.injEq, List.append_assoc]
              omega

theorem extTrace_zero_nil (st : Nat → Int) (matrix : Nat → Nat → Int) (t : Int) :
    extTrace st matrix [0] t = ([], t) := rfl

theorem extTrace_zero_cons (st : Nat → Int) (matrix : Nat → Nat → Int)
    (next : Nat) (rest2 : List Nat) (t : Int) :
    extTrace st matrix (0 :: next :: rest2) t
      = ((extTrace st matrix (next :: rest2) (t + matrix 0 next)).1,
         (extTrace st matrix (next :: rest2) (t + matrix 0 next)).2) := by
  conv_lhs => unfold extTrace
  simp

theorem extTrace_succ_nil (st : Nat → Int) (matrix : Nat → Nat → Int) (m : Nat) (t : Int) :
    extTrace st matrix [m + 1] t = ([(m, t, t + 60 * st m)], t + 60 * st m) := by
  conv_lhs => unfold extTrace
  simp
  exact ⟨rfl, rfl⟩

theorem extTrace_succ_cons (st : Nat → Int) (matrix : Nat → Nat → Int)
    (m next : Nat) (rest2 : List Nat) (t : Int) :
    extTrace st matrix ((m + 1) :: next :: rest2) t
      = ((m, t, t + 60 * st m)
          :: (extTrace st matrix (next :: rest2) (t + 60 * st m + matrix (m + 1) next)).1,
         (extTrace st matrix (next :: rest2) (t + 60 * st m + matrix (m + 1) next)).2) := by
  conv_lhs => unfold extTrace
  simp

/-- The waypoint indices the extraction trace schedules are exactly the
positive route nodes, shifted down by one. -/
theorem extTrace_idx (st : Nat → Int) (matrix : Nat → Nat → Int) :
    ∀ (route : List Nat) (t : Int),
      (extTrace st matrix route t).1.map (fun q => q.1)
        = (route.filter (fun x => decide (0 < x))).map (fun x => x - 1) := by
  intro route
  induction route with
  | nil => intro t; rfl
  | cons node rest ih =>
      intro t
      cases node with
      | zero =>
          cases rest with
          | nil => rfl
          | cons next rest2 =>
              rw [extTrace_zero_cons, ih]
              simp
      | succ m =>
          cases rest with
          | nil =>
              rw [extTrace_succ_nil]
              simp
          | cons next rest2 =>
              rw [extTrace_succ_cons, List.map_cons, ih]
              simp

/-- Every trace entry departs exactly `60 * stay` after it arrives. -/
theorem extTrace_dwell (st : Nat → Int) (matrix : Nat → Nat → Int) :
    ∀ (route : List Nat) (t : Int) (q : Nat × Int × Int),
      q ∈ (extTrace st matrix route t).1 → q.2.2 = q.2.1 + 60 * st q.1 := by
  intro route
  induction route with
  | nil =>
      intro t q hq
      simp [extTrace] at hq
  | cons node rest ih =>
      intro t q hq
      cases node with
      | zero =>
          cases rest with
          | nil => simp [extTrace_zero_nil] at hq
          | cons next rest2 =>
              rw [extTrace_zero_cons] at hq
              exact ih _ q hq
      | succ m =>
          cases rest with
          | nil =>
              rw [extTrace_succ_nil] at hq
              simp at hq
              rw [hq]
          | cons next rest2 =>
              rw [extTrace_succ_cons] at hq
              simp only [List.mem_cons] at hq
              rcases hq with hq | hq
              · rw [hq]
              · exact ih _ q hq

/-- Monotonicity of the extraction trace for a non-negative matrix: the first
arrival is not before the start, consecutive entries do not overlap, and the
final time is not before the last departure. -/
theorem extTrace_mono (st : Nat → Int) (matrix : Nat → Nat → Int)
    (hm : ∀ i j, (0 : Int) ≤ matrix i j) :
    ∀ (route : List Nat) (t : Int),
      (∀ q, (extTrace st matrix route t).1.head? = some q → t ≤ q.2.1)
      ∧ (∀ p, p + 1 < (extTrace st matrix route t).1.length →
          ((extTrace st matrix route t).1.getD p (0, 0, 0)).2.2
            ≤ ((extTrace st matrix route t).1.getD (p + 1) (0, 0, 0)).2.1)
      ∧ (∀ q, (extTrace st matrix route t).1.getLast? = some q →
          q.2.2 ≤ (extTrace st matrix route t).2)
      ∧ ((extTrace st matrix route t).1 = [] → t ≤ (extTrace st matrix route t).2) := by
  intro route
  induction route with
  | nil =>
      intro t
      refine ⟨?_, ?_, ?_, ?_⟩
      · intro q hq; simp [extTrace] at hq
      · intro p hp; simp [extTrace] at hp
      · intro q hq; simp [extTrace] at hq
      · intro _; exact le_refl t
  | cons node rest ih =>
      intro t
      cases node with
      | zero =>
          cases rest with
          | nil =>
              refine ⟨?_, ?_, ?_, ?_⟩
              · intro q hq; simp [extTrace_zero_nil] at hq
              · intro p hp; simp [extTrace_zero_nil] at hp
              · intro q hq; simp [extTrace_zero_nil] at hq
              · intro _; exact le_refl t
          | cons next rest2 =>
              have ht3 : t ≤ t + matrix 0 next := by
                have := hm 0 next
                omega
              rcases ih (t + matrix 0 next) with ⟨ihh, ihc, ihl, ihe⟩
              rw [extTrace_zero_cons]
              refine ⟨?_, ?_, ?_, ?_⟩
              · intro q hq
                exact le_trans ht3 (ihh q hq)
              · exact ihc
              · exact ihl
              · intro he
                exact le_trans ht3 (ihe he)
      | succ m =>
          cases rest with
          | nil =>
              rw [extTrace_succ_nil]
              refine ⟨?_, ?_, ?_, ?_⟩
              · intro q hq
                simp at hq
                rw [← hq]
              · intro p hp
                simp at hp
              · intro q hq
                simp at hq
                rw [← hq]
              · intro he
                simp at he
          | cons next rest2 =>
              have ht23 : t + 60 * st m ≤ t + 60 * st m + matrix (m + 1) next := by
                have := hm (m + 1) next
                omega
              rcases ih (t + 60 * st m + matrix (m + 1) next) with ⟨ihh, ihc, ihl, ihe⟩
              rw [extTrace_succ_cons]
              refine ⟨?_, ?_, ?_, ?_⟩
              · intro q hq
                simp at hq
                rw [← hq]
              · intro p hp
                cases p with
                | zero =>
                    simp only [List.length_cons] at hp
                    rcases htr2 : (extTrace st matrix (next :: rest2)
                        (t + 60 * st m + matrix (m + 1) next)).1 with _ | ⟨q0, trRest⟩
                    · rw [htr2] at hp
                      simp at hp
                    · have hh := ihh q0 (by rw [htr2]; rfl)
                      simpa using le_trans ht23 hh
                | succ p2 =>
                    simp only [List.length_cons] at hp
                    simp only [List.getD_cons_succ]
                    exact ihc p2 (by omega)
              · intro q hq
                rcases htr2 : (extTrace st matrix (next :: rest2)
                    (t + 60 * st m + matrix (m + 1) next)).1 with _ | ⟨q0, trRest⟩
                · rw [htr2] at hq
                  simp at hq
                  have he := ihe htr2
                  rw [← hq]
                  exact le_trans ht23 he
                · rw [htr2] at hq
                  rw [List.getLast?_cons_cons] at hq
                  have := ihl q (by rw [htr2]; exact hq)
                  exact this
              · intro he
                simp at he

/-! ## End-waypoint resolution and initial visited flags -/

theorem findEndIdxAux_spec (u : Nat) :
    ∀ (l : List Waypoint) (i j : Nat), findEndIdxAux u l i = some j →
      i ≤ j ∧ j - i < l.length ∧ (l.getD (j - i) default).id = u := by
  intro l
  induction l with
  | nil => intro i j h; cases h
  | cons wp rest ih =>
      intro i j h
      rw [findEndIdxAux] at h
      by_cases hid : wp.id = u
      · rw [if_pos hid] at h
        cases h
        refine ⟨le_refl _, by simp, ?_⟩
        rw [Nat.sub_self, List.getD_cons_zero]
        exact hid
      · rw [if_neg hid] at h
        rcases ih (i + 1) j h with ⟨h1, h2, h3⟩
        refine ⟨by omega, by simp only [List.length_cons]; omega, ?_⟩
        have e : j - i = (j - (i + 1)) + 1 := by omega
        rw [e, List.getD_cons_succ]
        exact h3

theorem findEndIdx_spec {waypoints : List Waypoint} {u e : Nat}
    (h : findEndIdx waypoints (some u) = some e) :
    e < waypoints.length ∧ (waypoints.getD e default).id = u := by
  have h2 := findEndIdxAux_spec u waypoints 0 e h
  rcases h2 with ⟨-, h2, h3⟩
  rw [Nat.sub_zero] at h2 h3
  exact ⟨h2, h3⟩

theorem findEndIdxAux_eq_none (u : Nat) :
    ∀ (l : List Waypoint) (i : Nat), (∀ wp ∈ l, wp.id ≠ u) → findEndIdxAux u l i = none := by
  intro l
  induction l with
  | nil => intro i _; rfl
  | cons wp rest ih =>
      intro i h
      rw [findEndIdxAux, if_neg (h wp (List.mem_cons_self _ _))]
      exact ih (i + 1) (fun w hw => h w (List.mem_cons_of_mem _ hw))

theorem findEndIdxAux_isSome (u : Nat) :
    ∀ (l : List Waypoint) (i : Nat), (∃ wp ∈ l, wp.id = u) →
      (findEndIdxAux u l i).isSome = true := by
  intro l
  induction l with
  | nil =>
      intro i h
      rcases h with ⟨wp, hwp, -⟩
      simp at hwp
  | cons wp rest ih =>
      intro i h
      rw [findEndIdxAux]
      by_cases hid : wp.id = u
      · rw [if_pos hid]
        rfl
      · rw [if_neg hid]
        rcases h with ⟨w, hw, hwu⟩
        rcases List.mem_cons.1 hw with hw1 | hw2
        · exact absurd (hw1 ▸ hwu) hid
        · exact ih (i + 1) ⟨w, hw2, hwu⟩

theorem initVisited_length (waypoints : List Waypoint) (eid : Option Nat) :
    (initVisited waypoints eid).length = waypoints.length := by
  unfold initVisited
  rcases findEndIdx waypoints eid with _ | e
  · simp
  · simp

theorem unvis_initVisited_none {waypoints : List Waypoint} {eid : Option Nat}
    (he : findEndIdx waypoints eid = none) :
    unvis (initVisited waypoints eid) = List.range waypoints.length := by
  unfold initVisited
  rw [he]
  exact unvis_replicate _

theorem unvis_initVisited_some {waypoints : List Waypoint} {eid : Option Nat} {e : Nat}
    (he : findEndIdx waypoints eid = some e) (hlt : e < waypoints.length) :
    unvis (initVisited waypoints eid) = (List.range waypoints.length).erase e := by
  unfold initVisited
  rw [he]
  rw [unvis_set_true (get?_replicate_false hlt), unvis_replicate]

/-! ## Positional helper lemmas -/

theorem getD_map_lt {α β : Type} (l : List α) (f : α → β) {p : Nat} (hp : p < l.length)
    (d : β) (d2 : α) : (l.map f).getD p d = f (l.getD p d2) := by
  rw [List.getD_eq_get?, List.get?_map]
  rw [List.get?_eq_some.2 ⟨hp, rfl⟩, List.getD_eq_get l d2 hp]
  rfl

theorem map_eq_at {α β : Type} {l : List α} {f g : α → β} (h : l.map f = l.map g)
    {p : Nat} (hp : p < l.length) (d : α) : f (l.getD p d) = g (l.getD p d) := by
  have h1 := getD_map_lt l f hp (f d) d
  have h2 := getD_map_lt l g hp (g d) d
  rw [← h1, ← h2, h]
  rw [List.getD_eq_get _ _ (by simpa using hp), List.getD_eq_get _ _ (by simpa using hp)]

theorem getD_mem {α : Type} (l : List α) {b : Nat} (h : b < l.length) (d : α) :
    l.getD b d ∈ l := by
  rw [List.getD_eq_get l d h]
  exact List.get_mem l b h

theorem map_getD_range {α : Type} (l : List α) (d : α) :
    (List.range l.length).map (fun i => l.getD i d) = l := by
  apply List.ext_get
  · simp
  · intro n h1 h2
    simp only [List.get_map, List.get_range]
    rw [List.getD_eq_get l d h2]

theorem nodup_map_sub_one {l : List Nat} (hnd : l.Nodup) (hpos : ∀ x ∈ l, 0 < x) :
    (l.map (fun x => x - 1)).Nodup := by
  induction l with
  | nil => simp
  | cons x rest ih =>
      simp only [List.nodup_cons] at hnd
      obtain ⟨hx, hrest⟩ := hnd
      simp only [List.map_cons, List.nodup_cons]
      refine ⟨?_, ih hrest (fun y hy => hpos y (List.mem_cons_of_mem _ hy))⟩
      intro hmem
      rcases List.mem_map.1 hmem with ⟨y, hy, hxy⟩
      have hxpos := hpos x (List.mem_cons_self _ _)
      have hypos := hpos y (List.mem_cons_of_mem _ hy)
      have hyx : y = x := by omega
      exact hx (hyx ▸ hy)

/-! ## Corollaries about the fallback's visit order -/

theorem findEndIdx_lt {waypoints : List Waypoint} {eid : Option Nat} {e : Nat}
    (h : findEndIdx waypoints eid = some e) : e < waypoints.length := by
  cases eid with
  | none => cases h
  | some u => exact (findEndIdx_spec h).1

theorem fbDelta_subset {waypoints : List Waypoint} {matrix : Nat → Nat → Int}
    {eid : Option Nat} : ∀ b ∈ fbDelta waypoints matrix eid, b < waypoints.length := by
  intro b hb
  have h := nnOrder_subset hb
  have h2 := unvis_lt h
  rwa [initVisited_length] at h2

theorem fbDelta_nodup (waypoints : List Waypoint) (matrix : Nat → Nat → Int)
    (eid : Option Nat) : (fbDelta waypoints matrix eid).Nodup :=
  nnOrder_nodup matrix _ _ 0

theorem nnOrder_perm_full {matrix : Nat → Nat → Int} {v : List Bool} {pos n : Nat}
    (hn : (unvis v).length ≤ n) :
    List.Perm (nnOrder matrix n v pos) (unvis v) := by
  have P := nnOrder_perm matrix n v pos
  have hlen := nnOrder_length matrix n v pos
  have hXlen : (unvis (markAll v (nnOrder matrix n v pos))).length = 0 := by
    have hP := P.length_eq
    rw [List.length_append] at hP
    omega
  have hXnil := List.length_eq_zero.1 hXlen
  rw [hXnil] at P
  simpa using P

theorem fbDelta_perm_none {waypoints : List Waypoint} {matrix : Nat → Nat → Int}
    {eid : Option Nat} (he : findEndIdx waypoints eid = none) :
    List.Perm (fbDelta waypoints matrix eid) (List.range waypoints.length) := by
  unfold fbDelta
  rw [he]
  have hu := unvis_initVisited_none he
  have h := @nnOrder_perm_full matrix (initVisited waypoints eid) 0
    (waypoints.length - (if (none : Option Nat).isSome then 1 else 0))
    (by rw [hu]; simp)
  rwa [hu] at h

theorem fbDelta_perm_some {waypoints : List Waypoint} {matrix : Nat → Nat → Int}
    {eid : Option Nat} {e : Nat} (he : findEndIdx waypoints eid = some e) :
    List.Perm (fbDelta waypoints matrix eid) ((List.range waypoints.length).erase e) := by
  unfold fbDelta
  rw [he]
  have helt := findEndIdx_lt he
  have hu := unvis_initVisited_some he helt
  have hlen : ((List.range waypoints.length).erase e).length = waypoints.length - 1 := by
    rw [List.length_erase_of_mem (List.mem_range.2 helt), List.length_range]
  have h := @nnOrder_perm_full matrix (initVisited waypoints eid) 0
    (waypoints.length - (if (some e).isSome then 1 else 0))
    (by rw [hu, hlen]; simp)
  rwa [hu] at h

theorem fbDelta_not_end {waypoints : List Waypoint} {matrix : Nat → Nat → Int}
    {eid : Option Nat} {e : Nat} (he : findEndIdx waypoints eid = some e) :
    e ∉ fbDelta waypoints matrix eid := by
  intro hmem
  have hperm := @fbDelta_perm_some waypoints matrix eid e he
  have h2 := hperm.mem_iff.1 hmem
  have h3 := ((List.nodup_range waypoints.length).mem_erase_iff).1 h2
  exact h3.1 rfl

theorem fullOrdered_nodup (waypoints : List Waypoint) (matrix : Nat → Nat → Int)
    (eid : Option Nat) :
    (fbDelta waypoints matrix eid ++ (findEndIdx waypoints eid).toList).Nodup := by
  rcases he : findEndIdx waypoints eid with _ | e
  · simp only [Option.toList, List.append_nil]
    exact fbDelta_nodup waypoints matrix eid
  · refine (fbDelta_nodup waypoints matrix eid).append (by simp) ?_
    intro b hb hb2
    simp only [Option.toList, List.mem_singleton] at hb2
    subst hb2
    exact fbDelta_not_end he hb

theorem fullOrdered_lt (waypoints : List Waypoint) (matrix : Nat → Nat → Int)
    (eid : Option Nat) :
    ∀ b ∈ fbDelta waypoints matrix eid ++ (findEndIdx waypoints eid).toList,
      b < waypoints.length := by
  intro b hb
  rcases List.mem_append.1 hb with hb1 | hb2
  · exact fbDelta_subset b hb1
  · rcases he : findEndIdx waypoints eid with _ | e
    · rw [he] at hb2
      simp at hb2
    · rw [he] at hb2
      simp only [Option.toList, List.mem_singleton] at hb2
      subst hb2
      exact findEndIdx_lt he

theorem fallbackFinal_ordered_perm (waypoints : List Waypoint) (matrix : Nat → Nat → Int)
    (start : Int) (eid : Option Nat) :
    List.Perm (fallbackFinal waypoints matrix start eid).ordered
      (List.range waypoints.length) := by
  rw [(fallbackFinal_spec waypoints matrix start eid).1]
  rcases he : findEndIdx waypoints eid with _ | e
  · simp only [Option.toList, List.append_nil]
    exact fbDelta_perm_none he
  · simp only [Option.toList]
    have h1 := @fbDelta_perm_some waypoints matrix eid e he
    have helt := findEndIdx_lt he
    exact (List.perm_append_singleton e _).trans
      ((h1.cons e).trans (List.perm_cons_erase (List.mem_range.2 helt)).symm)

/-! ## Map-level frame lemmas -/

theorem map_proj_set_scheduleWp {α : Type} (f : Waypoint → α)
    (hf : ∀ w o a d, f (scheduleWp w o a d) = f w)
    (wps : List Waypoint) (b o : Nat) (a d : Int) :
    (wps.set b (scheduleWp (wps.getD b default) o a d)).map f = wps.map f := by
  rw [List.map_set, hf]
  by_cases hb : b < wps.length
  · rw [← getD_map_lt wps f hb (f default) default]
    exact set_getD_same _ _ _ (by simpa using hb)
  · exact List.set_eq_of_length_le (by simpa using Nat.le_of_not_lt hb)

theorem writeSched_map_proj {α : Type} (f : Waypoint → α)
    (hf : ∀ w o a d, f (scheduleWp w o a d) = f w) (tr : List (Nat × Int × Int)) :
    ∀ (wps : List Waypoint) (o : Nat), (writeSched wps tr o).map f = wps.map f := by
  induction tr with
  | nil => intro wps o; rfl
  | cons q rest ih =>
      intro wps o
      rcases q with ⟨b, a, d⟩
      rw [writeSched, ih, map_proj_set_scheduleWp f hf]

/-! ## Read-back of the fallback's schedule -/

theorem fallback_times (waypoints : List Waypoint) (matrix : Nat → Nat → Int)
    (start : Int) (eid : Option Nat) :
    (fallbackFinal waypoints matrix start eid).ordered.map
        (fun b => (((fallbackFinal waypoints matrix start eid).wps.getD b default).arrival_time,
          ((fallbackFinal waypoints matrix start eid).wps.getD b default).departure_time))
      = (schedList (stFun waypoints) matrix (fallbackFinal waypoints matrix start eid).ordered
          0 start).map (fun q => (some q.2.1, some q.2.2)) := by
  rcases fallbackFinal_spec waypoints matrix start eid with ⟨ho, hw⟩
  set F := fbDelta waypoints matrix eid ++ (findEndIdx waypoints eid).toList with hF
  set tr := schedList (stFun waypoints) matrix F 0 start with htr
  rw [ho, hw]
  have h1 : tr.map (fun q => q.1) = F := schedList_fst _ _ _ _ _
  have hnd : (tr.map (fun q => q.1)).Nodup := by
    rw [h1, hF]
    exact fullOrdered_nodup _ _ _
  have hb : ∀ q ∈ tr, q.1 < waypoints.length := by
    intro q hq
    have h2 : q.1 ∈ F := by
      rw [← h1]
      exact List.mem_map_of_mem _ hq
    rw [hF] at h2
    exact fullOrdered_lt waypoints matrix eid _ h2
  have hT := writeSched_times tr waypoints 1 hnd hb
  calc F.map (fun b => (((writeSched waypoints tr 1).getD b default).arrival_time,
        ((writeSched waypoints tr 1).getD b default).departure_time))
      = (tr.map (fun q => q.1)).map
          (fun b => (((writeSched waypoints tr 1).getD b default).arrival_time,
            ((writeSched waypoints tr 1).getD b default).departure_time)) := by rw [h1]
    _ = tr.map (fun q => (some q.2.1, some q.2.2)) := by
        rw [List.map_map]
        exact hT

theorem fallback_orders (waypoints : List Waypoint) (matrix : Nat → Nat → Int)
    (start : Int) (eid : Option Nat) :
    (fallbackFinal waypoints matrix start eid).ordered.map
        (fun b => ((fallbackFinal waypoints matrix start eid).wps.getD b default).order)
      = (List.range (fallbackFinal waypoints matrix start eid).ordered.length).map
          (fun p => some (1 + p)) := by
  rcases fallbackFinal_spec waypoints matrix start eid with ⟨ho, hw⟩
  set F := fbDelta waypoints matrix eid ++ (findEndIdx waypoints eid).toList with hF
  set tr := schedList (stFun waypoints) matrix F 0 start with htr
  rw [ho, hw]
  have h1 : tr.map (fun q => q.1) = F := schedList_fst _ _ _ _ _
  have hnd : (tr.map (fun q => q.1)).Nodup := by
    rw [h1, hF]
    exact fullOrdered_nodup _ _ _
  have hb : ∀ q ∈ tr, q.1 < waypoints.length := by
    intro q hq
    have h2 : q.1 ∈ F := by
      rw [← h1]
      exact List.mem_map_of_mem _ hq
    rw [hF] at h2
    exact fullOrdered_lt waypoints matrix eid _ h2
  have hT := writeSched_orders tr waypoints 1 hnd hb
  have hlen : F.length = tr.length := by
    rw [htr, schedList_length]
  calc F.map (fun b => ((writeSched waypoints tr 1).getD b default).order)
      = (tr.map (fun q => q.1)).map
          (fun b => ((writeSched waypoints tr 1).getD b default).order) := by rw [h1]
    _ = (List.range tr.length).map (fun p => some (1 + p)) := by
        rw [List.map_map]
        exact hT
    _ = (List.range F.length).map (fun p => some (1 + p)) := by rw [hlen]

/-! ## Claim theorems -/

/-- C2: on the fallback path, the output timestamps satisfy the recurrence
`arrival[i] = departure[i-1] + travel(node(i-1), node(i))` with the origin's
departure equal to `constraints.start_time`, and `departure[i] = arrival[i] +
60 * dwell minutes` — `schedList` is literally that recurrence, seeded with
origin node `0` and `start_time`, along the visit order the fallback
produced. -/
theorem C2_fallback_schedule_recurrence (waypoints : List Waypoint)
    (matrix : Nat → Nat → Int) (constraints : TripConstraints) (eid : Option Nat) :
    (greedy_fallback waypoints matrix constraints eid).1.map
        (fun w => (w.arrival_time, w.departure_time))
      = (schedList (stFun waypoints) matrix
          (fallbackFinal waypoints matrix constraints.start_time eid).ordered
          0 constraints.start_time).map (fun q => (some q.2.1, some q.2.2)) := by
  show ((fallbackFinal waypoints matrix constraints.start_time eid).ordered.map
      (fun i => (fallbackFinal waypoints matrix constraints.start_time eid).wps.getD i default)).map
        (fun w => (w.arrival_time, w.departure_time)) = _
  rw [List.map_map]
  exact fallback_times waypoints matrix constraints.start_time eid

/-- C5: the fallback heuristic is exact greedy nearest-neighbour — its visit
order is an `NNRun` (each step selects an unvisited stop of minimum travel
time from the current position, ties broken by lowest index, then moves
there), it visits all stops except the reserved terminal one, and the
terminal stop (when resolved) is appended last. -/
theorem C5_greedy_nearest_neighbor (waypoints : List Waypoint)
    (matrix : Nat → Nat → Int) (constraints : TripConstraints) (eid : Option Nat) :
    NNRun matrix 0 (initVisited waypoints eid) (fbDelta waypoints matrix eid)
    ∧ (fbDelta waypoints matrix eid).length
        = waypoints.length - (if (findEndIdx waypoints eid).isSome then 1 else 0)
    ∧ (fallbackFinal waypoints matrix constraints.start_time eid).ordered
        = fbDelta waypoints matrix eid ++ (findEndIdx waypoints eid).toList := by
  refine ⟨nnOrder_NNRun matrix _ _ _, ?_,
    (fallbackFinal_spec waypoints matrix constraints.start_time eid).1⟩
  rcases he : findEndIdx waypoints eid with _ | e
  · rw [(fbDelta_perm_none he).length_eq, List.length_range]
    simp
  · rw [(fbDelta_perm_some he).length_eq,
      List.length_erase_of_mem (List.mem_range.2 (findEndIdx_lt he)), List.length_range]
    simp

/-- C6: on the fallback path the output visits each input stop exactly once —
the final `ordered` index list is a permutation of `range N`, and the
multiset of output stop ids equals the multiset of input stop ids. -/
theorem C6_fallback_permutation (waypoints : List Waypoint) (matrix : Nat → Nat → Int)
    (constraints : TripConstraints) (eid : Option Nat) :
    List.Perm (fallbackFinal waypoints matrix constraints.start_time eid).ordered
        (List.range waypoints.length)
    ∧ List.Perm ((greedy_fallback waypoints matrix constraints eid).1.map (fun w => w.id))
        (waypoints.map (fun w => w.id)) := by
  have hperm := fallbackFinal_ordered_perm waypoints matrix constraints.start_time eid
  refine ⟨hperm, ?_⟩
  show List.Perm (((fallbackFinal waypoints matrix constraints.start_time eid).ordered.map
      (fun i => (fallbackFinal waypoints matrix constraints.start_time eid).wps.getD i default)).map
        (fun w => w.id)) _
  rw [List.map_map]
  have hmap := hperm.map
    (fun b => ((fallbackFinal waypoints matrix constraints.start_time eid).wps.getD b default).id)
  have hw := (fallbackFinal_spec waypoints matrix constraints.start_time eid).2
  have hlen : (fallbackFinal waypoints matrix constraints.start_time eid).wps.length
      = waypoints.length := by
    rw [hw, writeSched_length]
  have e1 : (List.range waypoints.length).map
      (fun b => ((fallbackFinal waypoints matrix constraints.start_time eid).wps.getD b default).id)
      = (fallbackFinal waypoints matrix constraints.start_time eid).wps.map (fun w => w.id) := by
    rw [← hlen]
    have e0 : (fun b => ((fallbackFinal waypoints matrix constraints.start_time eid).wps.getD
        b default).id)
        = (fun w => w.id) ∘ (fun b =>
            (fallbackFinal waypoints matrix constraints.start_time eid).wps.getD b default) := rfl
    rw [e0, ← List.map_map, map_getD_range]
  have e2 : (fallbackFinal waypoints matrix constraints.start_time eid).wps.map (fun w => w.id)
      = waypoints.map (fun w => w.id) := by
    rw [hw]
    exact writeSched_map_proj (fun w => w.id) (fun w o a d => rfl) _ waypoints 1
  rw [e1, e2] at hmap
  exact hmap

/-- C10: the fallback scheduler never reads `end_time` — when the projected
departure of the final stop exceeds the end-time budget it still returns the
identical, complete result (one entry per input stop), with no error channel
and no warning flag. -/
theorem C10_overrun_accepted (waypoints : List Waypoint) (matrix : Nat → Nat → Int)
    (start et1 et2 : Int) (eid : Option Nat)
    (hover : ∃ w d, ((greedy_fallback waypoints matrix ⟨start, et1⟩ eid).1).getLast? = some w
      ∧ w.departure_time = some d ∧ et1 < d) :
    (greedy_fallback waypoints matrix ⟨start, et1⟩ eid).1
        = (greedy_fallback waypoints matrix ⟨start, et2⟩ eid).1
    ∧ ((greedy_fallback waypoints matrix ⟨start, et1⟩ eid).1).length = waypoints.length := by
  constructor
  · rfl
  · show ((fallbackFinal waypoints matrix start eid).ordered.map
      (fun i => (fallbackFinal waypoints matrix start eid).wps.getD i default)).length = _
    rw [List.length_map, (fallbackFinal_ordered_perm waypoints matrix start eid).length_eq,
      List.length_range]

/-- A one-stop fixture used by concrete instantiations. -/
def wpFix : Waypoint := ⟨5, none, none, none, none⟩

/-- A constant travel-time matrix used by concrete instantiations. -/
def mFix : Nat → Nat → Int := fun _ _ => 600

theorem C10_overrun_accepted_witness :
    (greedy_fallback [wpFix] mFix ⟨0, 1000⟩ none).1
        = (greedy_fallback [wpFix] mFix ⟨0, 99999⟩ none).1
    ∧ ((greedy_fallback [wpFix] mFix ⟨0, 1000⟩ none).1).length = [wpFix].length :=
  C10_overrun_accepted [wpFix] mFix 0 1000 99999 none
    ⟨⟨5, none, some 1, some 600, some 4200⟩, 4200, by decide, by decide, by decide⟩

/-- A second fixture stop. -/
def wpFix2 : Waypoint := ⟨6, none, none, none, none⟩

/-- C1 counterexample: with a single stop and travel time 600 s from the
origin in the matrix, the returned arrival_time is start_time, not
start_time + travel(origin, stop) — the claim is false on the code. -/
theorem C1_counterexample :
    ((solve_tsp [wpFix] mFix ⟨32400, 64800⟩ none none).1.getD 0 default).arrival_time
      ≠ some ((32400 : Int) + mFix 0 1) := by
  decide

/-- C1 amended: for exactly one stop, solve_tsp returns a single-element
result with order = 1, arrival_time = constraints.start_time (the origin
travel time is not added), and departure_time = arrival_time + 60 seconds
per dwell minute, the dwell defaulting to 60 minutes when unset or 0. -/
theorem C1_amended_single_stop (wp : Waypoint) (matrix : Nat → Nat → Int)
    (constraints : TripConstraints) (eid : Option Nat) (oracle : Option (List Nat)) :
    (solve_tsp [wp] matrix constraints eid oracle).1
      = [scheduleWp wp 1 constraints.start_time
          (constraints.start_time + 60 * stayMinutes wp.estimated_stay_duration)] := rfl

/-- C9 counterexample: with an end-stop id (99) matching neither input stop,
solve_tsp raises no error — it silently returns a complete two-stop tour. -/
theorem C9_counterexample :
    ((solve_tsp [wpFix, wpFix2] mFix ⟨0, 7200⟩ (some 99) none).1).length = 2
    ∧ ((solve_tsp [wpFix, wpFix2] mFix ⟨0, 7200⟩ (some 99) none).1).map (fun w => w.id)
        = [5, 6] := by
  decide

/-- C9 amended: an end-stop id that does not reference any input stop is
silently ignored — solve_tsp behaves exactly as if no end stop had been
specified, and returns that tour. -/
theorem C9_amended_ignore_unresolved_end (waypoints : List Waypoint)
    (matrix : Nat → Nat → Int) (constraints : TripConstraints) (u : Nat)
    (oracle : Option (List Nat)) (h : ∀ wp ∈ waypoints, wp.id ≠ u) :
    solve_tsp waypoints matrix constraints (some u) oracle
      = solve_tsp waypoints matrix constraints none oracle := by
  have hnone : findEndIdx waypoints (some u) = none := findEndIdxAux_eq_none u waypoints 0 h
  rcases waypoints with _ | ⟨w0, rest0⟩
  · rfl
  rcases rest0 with _ | ⟨w1, rest1⟩
  · rfl
  rcases oracle with _ | route
  · show greedy_fallback (w0 :: w1 :: rest1) matrix constraints (some u)
        = greedy_fallback (w0 :: w1 :: rest1) matrix constraints none
    unfold greedy_fallback fallbackFinal initVisited
    rw [hnone]
    rfl
  · simp only [solve_tsp]
    rw [hnone]
    rfl

theorem C9_amended_ignore_unresolved_end_witness :
    solve_tsp [wpFix, wpFix2] mFix ⟨0, 7200⟩ (some 99) none
      = solve_tsp [wpFix, wpFix2] mFix ⟨0, 7200⟩ none none :=
  C9_amended_ignore_unresolved_end [wpFix, wpFix2] mFix ⟨0, 7200⟩ 99 none (by decide)

/-- Well-formedness of the abstract solver route: it starts at the origin
node `0` and then visits waypoint nodes (1-based, in range) at most once
each — the shape of any route OR-Tools' single-vehicle model can return. -/
def oracleOk (L : Nat) : Option (List Nat) → Prop
  | none => True
  | some route => ∃ rs, route = 0 :: rs ∧ rs.Nodup ∧ ∀ x ∈ rs, 0 < x ∧ x ≤ L

theorem extract_state_frame (waypoints : List Waypoint) (matrix : Nat → Nat → Int)
    (start : Int) (eo : Option Nat) (route : List Nat) :
    (extractEnd matrix eo (extractLoop matrix route
        ⟨waypoints, [], 1, start⟩)).wps.map (fun w => (w.id, w.estimated_stay_duration))
      = waypoints.map (fun w => (w.id, w.estimated_stay_duration))
    ∧ (extractEnd matrix eo (extractLoop matrix route
        ⟨waypoints, [], 1, start⟩)).wps.length = waypoints.length := by
  rw [extractLoop_denote]
  rcases eo with _ | e
  · exact ⟨writeSched_map_proj (fun w => (w.id, w.estimated_stay_duration))
        (fun w o a d => rfl) _ waypoints 1,
      writeSched_length _ waypoints 1⟩
  · simp only [extractEnd]
    by_cases hmem : (e - 1) ∈ ([] ++ ((extTrace (stFun waypoints) matrix route start).1.map
        (fun q => q.1)))
    · rw [if_pos hmem]
      exact ⟨writeSched_map_proj (fun w => (w.id, w.estimated_stay_duration))
          (fun w o a d => rfl) _ waypoints 1,
        writeSched_length _ waypoints 1⟩
    · rw [if_neg hmem]
      constructor
      · rw [map_proj_set_scheduleWp (fun w => (w.id, w.estimated_stay_duration))
          (fun w o a d => rfl)]
        exact writeSched_map_proj (fun w => (w.id, w.estimated_stay_duration))
          (fun w o a d => rfl) _ waypoints 1
      · rw [List.length_set, writeSched_length]

theorem extract_ordered_lt (waypoints : List Waypoint) (matrix : Nat → Nat → Int)
    (start : Int) (eo : Option Nat) (route : List Nat)
    (hroute : ∀ x ∈ route, x ≤ waypoints.length)
    (heo : ∀ ee, eo = some ee → ee - 1 < waypoints.length) :
    ∀ b ∈ (extractEnd matrix eo (extractLoop matrix route
        ⟨waypoints, [], 1, start⟩)).ordered, b < waypoints.length := by
  rw [extractLoop_denote]
  have htridx : ∀ b2 ∈ (extTrace (stFun waypoints) matrix route start).1.map (fun q => q.1),
      b2 < waypoints.length := by
    intro b2 hb2
    rw [extTrace_idx] at hb2
    rcases List.mem_map.1 hb2 with ⟨x, hx, hxb⟩
    rcases List.mem_filter.1 hx with ⟨hxr, hxp⟩
    have hxpos : 0 < x := of_decide_eq_true hxp
    have hxle := hroute x hxr
    omega
  rcases eo with _ | e
  · intro b hb
    simp only [List.nil_append] at hb
    exact htridx b hb
  · simp only [extractEnd]
    by_cases hmem : (e - 1) ∈ ([] ++ ((extTrace (stFun waypoints) matrix route start).1.map
        (fun q => q.1)))
    · rw [if_pos hmem]
      intro b hb
      simp only [List.nil_append] at hb
      exact htridx b hb
    · rw [if_neg hmem]
      intro b hb
      simp only [List.nil_append] at hb
      rcases List.mem_append.1 hb with hb1 | hb2
      · exact htridx b hb1
      · simp only [List.mem_singleton] at hb2
        subst hb2
        exact heo e rfl

/-- C4 counterexample: after solve_tsp on a single stop, the input stop
object has been written in place (order, arrival_time and departure_time are
set), so the input list's final state differs from its initial state — the
input stops are not left unchanged. -/
theorem C4_counterexample :
    (solve_tsp [wpFix] mFix ⟨0, 7200⟩ none none).2 ≠ [wpFix] := by
  decide

/-- C4 amended: solve_tsp and the fallback mutate the input stops in place.
They write only the scheduling fields — id and estimated_stay_duration are
preserved for every input stop — and every element of the returned result
list is one of those same mutated input stop objects, not a fresh copy. -/
theorem C4_amended_mutation (waypoints : List Waypoint) (matrix : Nat → Nat → Int)
    (constraints : TripConstraints) (eid : Option Nat) (oracle : Option (List Nat))
    (ho : oracleOk waypoints.length oracle) :
    (solve_tsp waypoints matrix constraints eid oracle).2.map
        (fun w => (w.id, w.estimated_stay_duration))
      = waypoints.map (fun w => (w.id, w.estimated_stay_duration))
    ∧ ∀ w ∈ (solve_tsp waypoints matrix constraints eid oracle).1,
        w ∈ (solve_tsp waypoints matrix constraints eid oracle).2 := by
  rcases waypoints with _ | ⟨w0, rest0⟩
  · exact ⟨rfl, fun w hw => hw⟩
  rcases rest0 with _ | ⟨w1, rest1⟩
  · exact ⟨rfl, fun w hw => hw⟩
  rcases oracle with _ | route
  · constructor
    · show (fallbackFinal (w0 :: w1 :: rest1) matrix constraints.start_time eid).wps.map _ = _
      rw [(fallbackFinal_spec (w0 :: w1 :: rest1) matrix constraints.start_time eid).2]
      exact writeSched_map_proj (fun w => (w.id, w.estimated_stay_duration))
        (fun w o a d => rfl) _ _ 1
    · intro w hw
      have hw2 : w ∈ (fallbackFinal (w0 :: w1 :: rest1) matrix
          constraints.start_time eid).ordered.map
            (fun i => (fallbackFinal (w0 :: w1 :: rest1) matrix
              constraints.start_time eid).wps.getD i default) := hw
      rcases List.mem_map.1 hw2 with ⟨b, hb, hbw⟩
      have hblt : b < (w0 :: w1 :: rest1).length := by
        have hb2 := hb
        rw [(fallbackFinal_spec (w0 :: w1 :: rest1) matrix constraints.start_time eid).1] at hb2
        exact fullOrdered_lt _ matrix eid b hb2
      have hlen : (fallbackFinal (w0 :: w1 :: rest1) matrix
          constraints.start_time eid).wps.length = (w0 :: w1 :: rest1).length := by
        rw [(fallbackFinal_spec (w0 :: w1 :: rest1) matrix constraints.start_time eid).2,
          writeSched_length]
      show w ∈ (fallbackFinal (w0 :: w1 :: rest1) matrix constraints.start_time eid).wps
      rw [← hbw]
      exact getD_mem _ (by omega) _
  · rcases ho with ⟨rs, hr0, hnd, hrb⟩
    subst hr0
    have hroute : ∀ x ∈ (0 :: rs), x ≤ (w0 :: w1 :: rest1).length := by
      intro x hx
      rcases List.mem_cons.1 hx with hx0 | hxr
      · omega
      · exact (hrb x hxr).2
    have heo : ∀ ee, (findEndIdx (w0 :: w1 :: rest1) eid).map (· + 1) = some ee →
        ee - 1 < (w0 :: w1 :: rest1).length := by
      intro ee hee
      rcases hfe : findEndIdx (w0 :: w1 :: rest1) eid with _ | j
      · rw [hfe] at hee
        cases hee
      · rw [hfe] at hee
        simp at hee
        have hj := findEndIdx_lt hfe
        omega
    constructor
    · exact (extract_state_frame (w0 :: w1 :: rest1) matrix constraints.start_time
        ((findEndIdx (w0 :: w1 :: rest1) eid).map (· + 1)) (0 :: rs)).1
    · intro w hw
      rcases List.mem_map.1 hw with ⟨b, hb, hbw⟩
      have hblt := extract_ordered_lt (w0 :: w1 :: rest1) matrix constraints.start_time
        ((findEndIdx (w0 :: w1 :: rest1) eid).map (· + 1)) (0 :: rs) hroute heo b hb
      have hlen := (extract_state_frame (w0 :: w1 :: rest1) matrix constraints.start_time
        ((findEndIdx (w0 :: w1 :: rest1) eid).map (· + 1)) (0 :: rs)).2
      show w ∈ (extractEnd matrix ((findEndIdx (w0 :: w1 :: rest1) eid).map (· + 1))
        (extractLoop matrix (0 :: rs)
          ⟨w0 :: w1 :: rest1, [], 1, constraints.start_time⟩)).wps
      rw [← hbw]
      exact getD_mem _ (by omega) _

theorem C4_amended_mutation_witness :
    (solve_tsp [wpFix] mFix ⟨0, 7200⟩ none none).2.map
        (fun w => (w.id, w.estimated_stay_duration))
      = [wpFix].map (fun w => (w.id, w.estimated_stay_duration))
    ∧ ∀ w ∈ (solve_tsp [wpFix] mFix ⟨0, 7200⟩ none none).1,
        w ∈ (solve_tsp [wpFix] mFix ⟨0, 7200⟩ none none).2 :=
  C4_amended_mutation [wpFix] mFix ⟨0, 7200⟩ none none trivial

theorem map_eq_mem {α β : Type} {l : List α} {f g : α → β} (h : l.map f = l.map g)
    {x : α} (hx : x ∈ l) : f x = g x := by
  rcases List.mem_iff_get.1 hx with ⟨⟨p, hp⟩, hget⟩
  have h2 := map_eq_at h hp x
  rw [List.getD_eq_get _ _ hp, hget] at h2
  exact h2

theorem schedList_dwell (st : Nat → Int) (matrix : Nat → Nat → Int) :
    ∀ (l : List Nat) (node : Nat) (t : Int) (q : Nat × Int × Int),
      q ∈ schedList st matrix l node t → q.2.2 = q.2.1 + 60 * st q.1 := by
  intro l
  induction l with
  | nil =>
      intro node t q hq
      simp [schedList] at hq
  | cons b rest ih =>
      intro node t q hq
      simp only [schedList, List.mem_cons] at hq
      rcases hq with hq | hq
      · rw [hq]
      · exact ih _ _ q hq

/-- Every stop in a solve_tsp result departs exactly 60 seconds per
(defaulted) dwell minute after it arrives, on every code path. -/
theorem solve_tsp_dwell (waypoints : List Waypoint) (matrix : Nat → Nat → Int)
    (constraints : TripConstraints) (eid : Option Nat) (oracle : Option (List Nat))
    (ho : oracleOk waypoints.length oracle) :
    ∀ w ∈ (solve_tsp waypoints matrix constraints eid oracle).1,
      ∃ a, w.arrival_time = some a
        ∧ w.departure_time = some (a + 60 * stayMinutes w.estimated_stay_duration) := by
  rcases waypoints with _ | ⟨w0, rest0⟩
  · intro w hw
    cases hw
  rcases rest0 with _ | ⟨w1, rest1⟩
  · intro w hw
    rcases List.mem_singleton.1 hw with hw1
    subst hw1
    exact ⟨constraints.start_time, rfl, rfl⟩
  rcases oracle with _ | route
  · -- fallback path
    intro w hw
    have hw2 : w ∈ (fallbackFinal (w0 :: w1 :: rest1) matrix
        constraints.start_time eid).ordered.map
          (fun i => (fallbackFinal (w0 :: w1 :: rest1) matrix
            constraints.start_time eid).wps.getD i default) := hw
    rcases List.mem_map.1 hw2 with ⟨b, hb, hbw⟩
    rcases fallbackFinal_spec (w0 :: w1 :: rest1) matrix constraints.start_time eid with ⟨ho2, hwps⟩
    rw [ho2] at hb
    set F := fbDelta (w0 :: w1 :: rest1) matrix eid
      ++ (findEndIdx (w0 :: w1 :: rest1) eid).toList with hF
    set tr := schedList (stFun (w0 :: w1 :: rest1)) matrix F 0 constraints.start_time with htr
    have h1 : tr.map (fun q => q.1) = F := schedList_fst _ _ _ _ _
    have hnd : (tr.map (fun q => q.1)).Nodup := by
      rw [h1, hF]
      exact fullOrdered_nodup _ _ _
    have hbnd : ∀ q ∈ tr, q.1 < (w0 :: w1 :: rest1).length := by
      intro q hq
      have h2 : q.1 ∈ F := by
        rw [← h1]
        exact List.mem_map_of_mem _ hq
      rw [hF] at h2
      exact fullOrdered_lt _ matrix eid _ h2
    have hT := writeSched_times tr (w0 :: w1 :: rest1) 1 hnd hbnd
    have hbF : b ∈ tr.map (fun q => q.1) := by
      rw [h1]
      exact hb
    rcases List.mem_map.1 hbF with ⟨q, hq, hqb⟩
    have hpair := map_eq_mem hT hq
    have hdw := schedList_dwell (stFun (w0 :: w1 :: rest1)) matrix F 0 constraints.start_time q hq
    have hstay : stFun (w0 :: w1 :: rest1) q.1
        = stayMinutes (((writeSched (w0 :: w1 :: rest1) tr 1).getD q.1
            default).estimated_stay_duration) := by
      rw [(writeSched_id_stay tr (w0 :: w1 :: rest1) 1 q.1).2]
      rfl
    rw [← hbw, hwps, ← hqb]
    refine ⟨q.2.1, ?_, ?_⟩
    · exact congrArg Prod.fst hpair
    · have hdep : ((writeSched (w0 :: w1 :: rest1) tr 1).getD q.1 default).departure_time
          = some q.2.2 := congrArg Prod.snd hpair
      rw [hdep, hdw, hstay]
  · -- extraction path
    rcases ho with ⟨rs, hr0, hnd0, hrb⟩
    subst hr0
    intro w hw
    set eo := (findEndIdx (w0 :: w1 :: rest1) eid).map (· + 1) with heo
    have hw2 : w ∈ (extractEnd matrix eo (extractLoop matrix (0 :: rs)
        ⟨w0 :: w1 :: rest1, [], 1, constraints.start_time⟩)).ordered.map
          (fun i => (extractEnd matrix eo (extractLoop matrix (0 :: rs)
            ⟨w0 :: w1 :: rest1, [], 1, constraints.start_time⟩)).wps.getD i default) := hw
    rcases List.mem_map.1 hw2 with ⟨b, hb, hbw⟩
    rw [extractLoop_denote] at hb hbw
    set tr := (extTrace (stFun (w0 :: w1 :: rest1)) matrix (0 :: rs)
      constraints.start_time).1 with htr
    have hidx : tr.map (fun q => q.1) = rs.map (fun x => x - 1) := by
      rw [htr, extTrace_idx]
      have hf : (0 :: rs).filter (fun x => decide (0 < x)) = rs := by
        have h0 : ((0 : Nat) :: rs).filter (fun x => decide (0 < x))
            = rs.filter (fun x => decide (0 < x)) := by
          simp
        rw [h0]
        exact List.filter_eq_self.2 (fun x hx => decide_eq_true (hrb x hx).1)
      rw [hf]
    have hndtr : (tr.map (fun q => q.1)).Nodup := by
      rw [hidx]
      exact nodup_map_sub_one hnd0 (fun x hx => (hrb x hx).1)
    have hbndtr : ∀ q ∈ tr, q.1 < (w0 :: w1 :: rest1).length := by
      intro q hq
      have h2 : q.1 ∈ tr.map (fun q => q.1) := List.mem_map_of_mem _ hq
      rw [hidx] at h2
      rcases List.mem_map.1 h2 with ⟨x, hx, hxq⟩
      have := hrb x hx
      omega
    have hT := writeSched_times tr (w0 :: w1 :: rest1) 1 hndtr hbndtr
    have hdwq : ∀ q ∈ tr, ∃ a, ((writeSched (w0 :: w1 :: rest1) tr 1).getD q.1
        default).arrival_time = some a
        ∧ ((writeSched (w0 :: w1 :: rest1) tr 1).getD q.1 default).departure_time
          = some (a + 60 * stayMinutes (((writeSched (w0 :: w1 :: rest1) tr 1).getD q.1
              default).estimated_stay_duration)) := by
      intro q hq
      have hpair := map_eq_mem hT hq
      have hdw := extTrace_dwell (stFun (w0 :: w1 :: rest1)) matrix (0 :: rs)
        constraints.start_time q (htr ▸ hq)
      have hstay : stFun (w0 :: w1 :: rest1) q.1
          = stayMinutes (((writeSched (w0 :: w1 :: rest1) tr 1).getD q.1
              default).estimated_stay_duration) := by
        rw [(writeSched_id_stay tr (w0 :: w1 :: rest1) 1 q.1).2]
        rfl
      refine ⟨q.2.1, congrArg Prod.fst hpair, ?_⟩
      have hdep := congrArg Prod.snd hpair
      simp only at hdep
      rw [hdep, hdw, hstay]
    rcases heor : eo with _ | e
    · rw [heor] at hb hbw
      simp only [extractEnd, List.nil_append] at hb hbw
      rcases List.mem_map.1 hb with ⟨q, hq, hqb⟩
      rw [← hbw, ← hqb]
      exact hdwq q hq
    · rw [heor] at hb hbw
      simp only [extractEnd] at hb hbw
      by_cases hmem : (e - 1) ∈ ([] ++ tr.map (fun q => q.1))
      · rw [if_pos hmem] at hb hbw
        simp only [List.nil_append] at hb
        rcases List.mem_map.1 hb with ⟨q, hq, hqb⟩
        rw [← hbw, ← hqb]
        exact hdwq q hq
      · rw [if_neg hmem] at hb hbw
        simp only [List.nil_append] at hb
        rcases List.mem_append.1 hb with hb1 | hb1
        · rcases List.mem_map.1 hb1 with ⟨q, hq, hqb⟩
          have hne : e - 1 ≠ q.1 := by
            intro hcontra
            apply hmem
            rw [hcontra]
            exact List.mem_append_right _ (List.mem_map_of_mem _ hq)
          rw [← hbw, ← hqb]
          rw [getD_set_ne _ _ _ (by
            intro hcontra
            exact hne hcontra)]
          exact hdwq q hq
        · simp only [List.mem_singleton] at hb1
          have helt : e - 1 < (writeSched (w0 :: w1 :: rest1) tr 1).length := by
            rw [writeSched_length]
            have : ∃ j, findEndIdx (w0 :: w1 :: rest1) eid = some j ∧ e = j + 1 := by
              rcases hfe : findEndIdx (w0 :: w1 :: rest1) eid with _ | j
              · rw [heo, hfe] at heor
                cases heor
              · rw [heo, hfe] at heor
                simp at heor
                exact ⟨j, rfl, heor.symm⟩
            rcases this with ⟨j, hj, hje⟩
            have := findEndIdx_lt hj
            omega
          rw [← hbw, hb1, getD_set_self _ _ _ _ helt]
          exact ⟨_, rfl, rfl⟩

/-- C3: whenever a stop's estimated_stay_duration is 0 or unset, both
solve_tsp (single-stop and extraction paths) and the greedy fallback
schedule a dwell of 60 minutes: departure_time = arrival_time + 3600
seconds. -/
theorem C3_default_dwell_sixty (waypoints : List Waypoint) (matrix : Nat → Nat → Int)
    (constraints : TripConstraints) (eid : Option Nat) (oracle : Option (List Nat))
    (ho : oracleOk waypoints.length oracle) :
    ∀ w ∈ (solve_tsp waypoints matrix constraints eid oracle).1,
      (w.estimated_stay_duration = none ∨ w.estimated_stay_duration = some 0) →
      ∃ a, w.arrival_time = some a ∧ w.departure_time = some (a + 3600) := by
  intro w hw hstay
  rcases solve_tsp_dwell waypoints matrix constraints eid oracle ho w hw with ⟨a, ha, hd⟩
  refine ⟨a, ha, ?_⟩
  rcases hstay with h0 | h0
  · rw [hd, h0]
    rfl
  · rw [hd, h0]
    rfl

theorem C3_default_dwell_sixty_witness :
    ∃ a, (((solve_tsp [wpFix] mFix ⟨0, 7200⟩ none none).1.getD 0 default).arrival_time = some a)
      ∧ (((solve_tsp [wpFix] mFix ⟨0, 7200⟩ none none).1.getD 0 default).departure_time
          = some (a + 3600)) :=
  C3_default_dwell_sixty [wpFix] mFix ⟨0, 7200⟩ none none trivial
    ((solve_tsp [wpFix] mFix ⟨0, 7200⟩ none none).1.getD 0 default)
    (by decide) (by decide)

theorem range_getD {n p : Nat} (hp : p < n) : (List.range n).getD p 0 = p := by
  rw [List.getD_eq_get?, List.get?_range hp]
  rfl

theorem getD_concat_length {α : Type} (l : List α) (a d : α) :
    (l ++ [a]).getD l.length d = a := by
  rw [List.getD_eq_get?, List.get?_concat_length]
  rfl

/-- Shape of a solver route consistent with the fixed-end routing model: it
starts at the origin, visits only waypoint nodes other than the end node
`j + 1`, and has one entry per non-end stop. -/
def endRouteOk (L j : Nat) : Option (List Nat) → Prop
  | none => True
  | some route => ∃ rs, route = 0 :: rs ∧ (∀ x ∈ rs, 0 < x ∧ x ≠ j + 1)
      ∧ rs.length = L - 1

theorem extract_fixed_end (waypoints : List Waypoint) (matrix : Nat → Nat → Int)
    (start : Int) (j : Nat) (rs : List Nat)
    (hjL : j < waypoints.length)
    (hxs : ∀ x ∈ rs, 0 < x ∧ x ≠ j + 1)
    (hlen_rs : rs.length = waypoints.length - 1) :
    ∃ w, ((extractEnd matrix (some (j + 1)) (extractLoop matrix (0 :: rs)
        ⟨waypoints, [], 1, start⟩)).ordered.map
          (fun i => (extractEnd matrix (some (j + 1)) (extractLoop matrix (0 :: rs)
            ⟨waypoints, [], 1, start⟩)).wps.getD i default)).getLast? = some w
      ∧ w.order = some waypoints.length
      ∧ w.id = (waypoints.getD j default).id := by
  rw [extractLoop_denote]
  set tr := (extTrace (stFun waypoints) matrix (0 :: rs) start).1 with htr
  have hidx : tr.map (fun q => q.1) = rs.map (fun x => x - 1) := by
    rw [htr, extTrace_idx]
    have h0 : ((0 : Nat) :: rs).filter (fun x => decide (0 < x))
        = rs.filter (fun x => decide (0 < x)) := by
      simp
    rw [h0, List.filter_eq_self.2 (fun x hx => decide_eq_true (hxs x hx).1)]
  have htlen : tr.length = rs.length := by
    have h2 := congrArg List.length hidx
    simpa using h2
  have hmem : ¬ ((j + 1 - 1) ∈ ([] ++ tr.map (fun q => q.1))) := by
    simp only [List.nil_append]
    rw [hidx]
    intro hmem
    rcases List.mem_map.1 hmem with ⟨x, hx, hxj⟩
    rcases hxs x hx with ⟨hxp, hxne⟩
    apply hxne
    omega
  simp only [extractEnd]
  rw [if_neg hmem]
  have hjlen : j + 1 - 1 < (writeSched waypoints tr 1).length := by
    rw [writeSched_length]
    omega
  simp only [List.getLast?_map, List.getLast?_concat]
  refine ⟨_, rfl, ?_, ?_⟩
  · simp only []
    rw [getD_set_self _ _ _ _ hjlen]
    show some (1 + tr.length) = some waypoints.length
    rw [htlen]
    congr 1
    omega
  · simp only []
    rw [getD_set_self _ _ _ _ hjlen]
    show ((writeSched waypoints tr 1).getD (j + 1 - 1) default).id = _
    rw [(writeSched_id_stay tr waypoints 1 (j + 1 - 1)).1, Nat.add_sub_cancel]

/-- C7: when the optional end-stop id resolves to one of the N input stops,
the returned sequence ends with that stop and its order is N — on the
single-stop path, the fallback path, and the extraction path for any solver
route of the shape the fixed-end routing model produces. -/
theorem C7_fixed_end_last (waypoints : List Waypoint) (matrix : Nat → Nat → Int)
    (constraints : TripConstraints) (u : Nat) (oracle : Option (List Nat))
    (hres : ∃ wp ∈ waypoints, wp.id = u)
    (ho : ∀ j, findEndIdx waypoints (some u) = some j →
      endRouteOk waypoints.length j oracle) :
    ∃ w, ((solve_tsp waypoints matrix constraints (some u) oracle).1).getLast? = some w
      ∧ w.order = some waypoints.length ∧ w.id = u := by
  rcases waypoints with _ | ⟨w0, rest0⟩
  · rcases hres with ⟨wp, hwp, -⟩
    simp at hwp
  rcases rest0 with _ | ⟨w1, rest1⟩
  · rcases hres with ⟨wp, hwp, hid⟩
    have hwp0 : wp = w0 := List.mem_singleton.1 hwp
    subst hwp0
    exact ⟨_, rfl, rfl, hid⟩
  have hsome := findEndIdxAux_isSome u (w0 :: w1 :: rest1) 0 hres
  rcases hj : findEndIdx (w0 :: w1 :: rest1) (some u) with _ | j
  · have hj2 : findEndIdxAux u (w0 :: w1 :: rest1) 0 = none := hj
    rw [hj2] at hsome
    simp at hsome
  have hjL : j < (w0 :: w1 :: rest1).length := findEndIdx_lt hj
  have hjid : ((w0 :: w1 :: rest1).getD j default).id = u := (findEndIdx_spec hj).2
  rcases oracle with _ | route
  · -- fallback path
    have hsp := fallbackFinal_spec (w0 :: w1 :: rest1) matrix constraints.start_time (some u)
    have ho2 : (fallbackFinal (w0 :: w1 :: rest1) matrix constraints.start_time
        (some u)).ordered = fbDelta (w0 :: w1 :: rest1) matrix (some u) ++ [j] := by
      rw [hsp.1, hj]
      rfl
    have hdl : (fbDelta (w0 :: w1 :: rest1) matrix (some u)).length
        = (w0 :: w1 :: rest1).length - 1 := by
      rw [(fbDelta_perm_some hj).length_eq,
        List.length_erase_of_mem (List.mem_range.2 hjL), List.length_range]
    have holen : (fallbackFinal (w0 :: w1 :: rest1) matrix constraints.start_time
        (some u)).ordered.length = (w0 :: w1 :: rest1).length := by
      rw [ho2, List.length_append]
      simp only [List.length_singleton]
      have hL : 1 ≤ (w0 :: w1 :: rest1).length := by simp
      omega
    refine ⟨(fallbackFinal (w0 :: w1 :: rest1) matrix constraints.start_time
      (some u)).wps.getD j default, ?_, ?_, ?_⟩
    · show (((fallbackFinal (w0 :: w1 :: rest1) matrix constraints.start_time
        (some u)).ordered.map (fun i => (fallbackFinal (w0 :: w1 :: rest1) matrix
          constraints.start_time (some u)).wps.getD i default)).getLast?) = _
      rw [List.getLast?_map, ho2, List.getLast?_concat]
      rfl
    · have hOrd := fallback_orders (w0 :: w1 :: rest1) matrix constraints.start_time (some u)
      have hp : (fbDelta (w0 :: w1 :: rest1) matrix (some u)).length
          < (fallbackFinal (w0 :: w1 :: rest1) matrix constraints.start_time
              (some u)).ordered.length := by
        rw [ho2]
        simp
      have h1 := congrArg
        (fun t => t.getD (fbDelta (w0 :: w1 :: rest1) matrix (some u)).length none) hOrd
      simp only at h1
      rw [getD_map_lt _ _ hp none 0, getD_map_lt _ _ (by simpa using hp) none 0,
        range_getD (by simpa using hp)] at h1
      have hgj : (fallbackFinal (w0 :: w1 :: rest1) matrix constraints.start_time
          (some u)).ordered.getD (fbDelta (w0 :: w1 :: rest1) matrix (some u)).length 0
          = j := by
        rw [ho2, getD_concat_length]
      rw [hgj] at h1
      rw [h1]
      congr 1
      omega
    · rw [hsp.2, (writeSched_id_stay _ _ _ _).1]
      exact hjid
  · -- extraction path
    rcases ho j hj with ⟨rs, hr0, hxs, hlen_rs⟩
    subst hr0
    have hkey := extract_fixed_end (w0 :: w1 :: rest1) matrix constraints.start_time j rs
      hjL hxs hlen_rs
    have heq : (solve_tsp (w0 :: w1 :: rest1) matrix constraints (some u) (some (0 :: rs))).1
        = (extractEnd matrix (some (j + 1)) (extractLoop matrix (0 :: rs)
            ⟨w0 :: w1 :: rest1, [], 1, constraints.start_time⟩)).ordered.map
          (fun i => (extractEnd matrix (some (j + 1)) (extractLoop matrix (0 :: rs)
            ⟨w0 :: w1 :: rest1, [], 1, constraints.start_time⟩)).wps.getD i default) := by
      simp only [solve_tsp]
      rw [hj]
      rfl
    rcases hkey with ⟨w, h1, h2, h3⟩
    refine ⟨w, ?_, h2, h3.trans hjid⟩
    rw [heq]
    exact h1

theorem C7_fixed_end_last_witness :
    ∃ w, ((solve_tsp [wpFix, wpFix2] mFix ⟨32400, 64800⟩ (some 6) none).1).getLast? = some w
      ∧ w.order = some 2 ∧ w.id = 6 :=
  C7_fixed_end_last [wpFix, wpFix2] mFix ⟨32400, 64800⟩ 6 none
    (by decide) (fun j hj => trivial)

/-! ## Chained, non-overlapping timestamps on every path (C8) -/

theorem getLast?_eq_getD {α : Type} (l : List α) (d : α) (h : l ≠ []) :
    l.getLast? = some (l.getD (l.length - 1) d) := by
  have hlt : l.length - 1 < l.length := by
    cases l with
    | nil => exact absurd rfl h
    | cons x xs => simp
  rw [List.getLast?_eq_getElem?, List.getElem?_eq_getElem hlt, List.getD_eq_get l d hlt]
  rfl

theorem getD_concat_of_length {α : Type} (l : List α) (a d : α) {p : Nat}
    (hp : p = l.length) : (l ++ [a]).getD p d = a := by
  subst hp
  exact getD_concat_length l a d

/-- Position `p` of a loop trace is written back with order `p + 1`. -/
theorem trace_pos_order (waypoints : List Waypoint) (tr : List (Nat × Int × Int))
    (hnd : (tr.map (fun q => q.1)).Nodup) (hb : ∀ q ∈ tr, q.1 < waypoints.length)
    (p : Nat) (hp : p < tr.length) :
    ((writeSched waypoints tr 1).getD ((tr.getD p (0, 0, 0)).1) default).order
      = some (p + 1) := by
  have hOrd := writeSched_orders tr waypoints 1 hnd hb
  have h1 := congrArg (fun t => t.getD p none) hOrd
  simp only at h1
  rw [getD_map_lt tr _ hp none (0, 0, 0),
      getD_map_lt _ _ (by simpa using hp) none 0,
      range_getD hp] at h1
  rw [h1]
  congr 1
  omega

/-- Position `p` of a loop trace is written back with the trace timestamps. -/
theorem trace_pos_times (waypoints : List Waypoint) (tr : List (Nat × Int × Int))
    (hnd : (tr.map (fun q => q.1)).Nodup) (hb : ∀ q ∈ tr, q.1 < waypoints.length)
    (p : Nat) (hp : p < tr.length) :
    ((writeSched waypoints tr 1).getD ((tr.getD p (0, 0, 0)).1) default).arrival_time
        = some ((tr.getD p (0, 0, 0)).2.1)
    ∧ ((writeSched waypoints tr 1).getD ((tr.getD p (0, 0, 0)).1) default).departure_time
        = some ((tr.getD p (0, 0, 0)).2.2) := by
  have hT := writeSched_times tr waypoints 1 hnd hb
  have h2 := map_eq_at hT hp (0, 0, 0)
  exact ⟨congrArg Prod.fst h2, congrArg Prod.snd h2⟩

/-- The extraction loop alone (no end epilogue) yields positional orders and
chained, non-overlapping timestamps. -/
theorem loop_state_chain (waypoints : List Waypoint) (matrix : Nat → Nat → Int)
    (start : Int) (rs : List Nat)
    (hm : ∀ i j, (0 : Int) ≤ matrix i j) (hnd : rs.Nodup)
    (hxs : ∀ x ∈ rs, 0 < x ∧ x ≤ waypoints.length) :
    ∀ (ord : List Nat) (wps2 : List Waypoint),
      ord = (extTrace (stFun waypoints) matrix (0 :: rs) start).1.map (fun q => q.1) →
      wps2 = writeSched waypoints (extTrace (stFun waypoints) matrix (0 :: rs) start).1 1 →
      (∀ p, p < ord.length →
        ((ord.map (fun i => wps2.getD i default)).getD p default).order = some (p + 1))
      ∧ (∀ p, p + 1 < ord.length →
          ∃ d a,
            ((ord.map (fun i => wps2.getD i default)).getD p default).departure_time = some d
            ∧ ((ord.map (fun i => wps2.getD i default)).getD (p + 1)
                default).arrival_time = some a
            ∧ d ≤ a) := by
  intro ord wps2 hord hwps
  subst hord
  subst hwps
  set tr := (extTrace (stFun waypoints) matrix (0 :: rs) start).1 with htr
  have hfst : tr.map (fun q => q.1) = rs.map (fun x => x - 1) := by
    rw [htr, extTrace_idx]
    have h0 : ((0 : Nat) :: rs).filter (fun x => decide (0 < x))
        = rs.filter (fun x => decide (0 < x)) := by
      simp
    rw [h0, List.filter_eq_self.2 (fun x hx => decide_eq_true (hxs x hx).1)]
  have hnd' : (tr.map (fun q => q.1)).Nodup := by
    rw [hfst]
    exact nodup_map_sub_one hnd (fun x hx => (hxs x hx).1)
  have hb : ∀ q ∈ tr, q.1 < waypoints.length := by
    intro q hq
    have h1 : q.1 ∈ tr.map (fun q => q.1) := List.mem_map_of_mem _ hq
    rw [hfst] at h1
    rcases List.mem_map.1 h1 with ⟨x, hx, hxq⟩
    have h2 := hxs x hx
    omega
  rcases extTrace_mono (stFun waypoints) matrix hm (0 :: rs) start with ⟨-, hchain, -, -⟩
  constructor
  · intro p hp
    have hp' : p < tr.length := by simpa using hp
    rw [getD_map_lt _ _ hp default 0, getD_map_lt tr _ hp' 0 (0, 0, 0)]
    exact trace_pos_order waypoints tr hnd' hb p hp'
  · intro p hp
    have hp1 : p + 1 < tr.length := by simpa using hp
    have hp0 : p < tr.length := by omega
    have hq1 : p < (tr.map (fun q => q.1)).length := by
      simp only [List.length_map]
      omega
    have hq2 : p + 1 < (tr.map (fun q => q.1)).length := by
      simp only [List.length_map]
      omega
    rw [getD_map_lt _ _ hq1 default 0, getD_map_lt _ _ hq2 default 0,
        getD_map_lt tr _ hp0 0 (0, 0, 0), getD_map_lt tr _ hp1 0 (0, 0, 0)]
    obtain ⟨-, hd0⟩ := trace_pos_times waypoints tr hnd' hb p hp0
    obtain ⟨ha1, -⟩ := trace_pos_times waypoints tr hnd' hb (p + 1) hp1
    exact ⟨_, _, hd0, ha1, hchain p hp1⟩

/-- The full extraction path (loop plus fixed-end epilogue) yields positional
orders and chained, non-overlapping timestamps for a non-negative matrix. -/
theorem extract_chain (waypoints : List Waypoint) (matrix : Nat → Nat → Int)
    (start : Int) (eo : Option Nat) (rs : List Nat)
    (hm : ∀ i j, (0 : Int) ≤ matrix i j) (hnd : rs.Nodup)
    (hxs : ∀ x ∈ rs, 0 < x ∧ x ≤ waypoints.length)
    (heo : ∀ e, eo = some e → e - 1 < waypoints.length) :
    ∀ S : ExtractState,
      S = extractEnd matrix eo (extractLoop matrix (0 :: rs) ⟨waypoints, [], 1, start⟩) →
      (∀ p, p < S.ordered.length →
        ((S.ordered.map (fun i => S.wps.getD i default)).getD p default).order = some (p + 1))
      ∧ (∀ p, p + 1 < S.ordered.length →
          ∃ d a,
            ((S.ordered.map (fun i => S.wps.getD i default)).getD p default).departure_time
              = some d
            ∧ ((S.ordered.map (fun i => S.wps.getD i default)).getD (p + 1)
                default).arrival_time = some a
            ∧ d ≤ a) := by
  intro S hS
  subst hS
  rw [extractLoop_denote]
  rcases eo with _ | e
  · exact loop_state_chain waypoints matrix start rs hm hnd hxs _ _ rfl rfl
  · simp only [extractEnd, List.nil_append]
    set tr := (extTrace (stFun waypoints) matrix (0 :: rs) start).1 with htr
    by_cases hmem : (e - 1) ∈ tr.map (fun q => q.1)
    · rw [if_pos hmem]
      exact loop_state_chain waypoints matrix start rs hm hnd hxs _ _ rfl rfl
    · rw [if_neg hmem]
      simp only []
      have heL : e - 1 < waypoints.length := heo e rfl
      have hfst : tr.map (fun q => q.1) = rs.map (fun x => x - 1) := by
        rw [htr, extTrace_idx]
        have h0 : ((0 : Nat) :: rs).filter (fun x => decide (0 < x))
            = rs.filter (fun x => decide (0 < x)) := by
          simp
        rw [h0, List.filter_eq_self.2 (fun x hx => decide_eq_true (hxs x hx).1)]
      have hnd' : (tr.map (fun q => q.1)).Nodup := by
        rw [hfst]
        exact nodup_map_sub_one hnd (fun x hx => (hxs x hx).1)
      have hb : ∀ q ∈ tr, q.1 < waypoints.length := by
        intro q hq
        have h1 : q.1 ∈ tr.map (fun q => q.1) := List.mem_map_of_mem _ hq
        rw [hfst] at h1
        rcases List.mem_map.1 h1 with ⟨x, hx, hxq⟩
        have h2 := hxs x hx
        omega
      rcases extTrace_mono (stFun waypoints) matrix hm (0 :: rs) start with ⟨-, hchain, hlastd, -⟩
      have hne : ∀ q : Nat × Int × Int, q ∈ tr → (e - 1) ≠ q.1 := by
        intro q hq hcon
        exact hmem (by
          rw [hcon]
          exact List.mem_map_of_mem _ hq)
      constructor
      · intro p hp
        have hp1 : p < tr.length + 1 := by simpa using hp
        rw [getD_map_lt _ _ hp default 0]
        by_cases hpe : p < tr.length
        · rw [List.getD_append _ _ _ _ (by simpa using hpe),
              getD_map_lt tr _ hpe 0 (0, 0, 0)]
          rw [getD_set_ne _ _ _ (hne _ (getD_mem tr hpe (0, 0, 0)))]
          exact trace_pos_order waypoints tr hnd' hb p hpe
        · have hpeq : p = tr.length := by omega
          rw [getD_concat_of_length _ _ _ (by simpa using hpeq)]
          rw [getD_set_self _ _ _ _ (by
            rw [writeSched_length]
            exact heL)]
          show some (1 + tr.length) = some (p + 1)
          congr 1
          omega
      · intro p hp
        have hp1 : p + 1 < tr.length + 1 := by simpa using hp
        have hq1 : p < (tr.map (fun q => q.1) ++ [e - 1]).length := by
          simp only [List.length_append, List.length_map, List.length_singleton]
          omega
        have hq2 : p + 1 < (tr.map (fun q => q.1) ++ [e - 1]).length := by
          simp only [List.length_append, List.length_map, List.length_singleton]
          omega
        rw [getD_map_lt _ _ hq1 default 0, getD_map_lt _ _ hq2 default 0]
        by_cases hpe : p + 1 < tr.length
        · have hq3 : p < (tr.map (fun q => q.1)).length := by
            simp only [List.length_map]
            omega
          have hq4 : p + 1 < (tr.map (fun q => q.1)).length := by
            simp only [List.length_map]
            omega
          rw [List.getD_append _ _ _ _ hq3, List.getD_append _ _ _ _ hq4,
              getD_map_lt tr _ (show p < tr.length by omega) 0 (0, 0, 0),
              getD_map_lt tr _ hpe 0 (0, 0, 0)]
          rw [getD_set_ne _ _ _ (hne _ (getD_mem tr (show p < tr.length by omega) (0, 0, 0))),
              getD_set_ne _ _ _ (hne _ (getD_mem tr hpe (0, 0, 0)))]
          obtain ⟨-, hd0⟩ := trace_pos_times waypoints tr hnd' hb p (by omega)
          obtain ⟨ha1, -⟩ := trace_pos_times waypoints tr hnd' hb (p + 1) hpe
          exact ⟨_, _, hd0, ha1, hchain p hpe⟩
        · have hpeq : p + 1 = tr.length := by omega
          have hp0 : p < tr.length := by omega
          have htrne : tr ≠ [] := by
            intro hcon
            rw [hcon] at hpeq
            simp at hpeq
          have hq3 : p < (tr.map (fun q => q.1)).length := by
            simp only [List.length_map]
            omega
          rw [List.getD_append _ _ _ _ hq3,
              getD_concat_of_length _ _ _ (by simpa using hpeq),
              getD_map_lt tr _ hp0 0 (0, 0, 0)]
          rw [getD_set_ne _ _ _ (hne _ (getD_mem tr hp0 (0, 0, 0))),
              getD_set_self _ _ _ _ (by
                rw [writeSched_length]
                exact heL)]
          obtain ⟨-, hd0⟩ := trace_pos_times waypoints tr hnd' hb p hp0
          have hlast2 : (tr.map (fun q => q.1)).getLast? = some ((tr.getD p (0, 0, 0)).1) := by
            rw [List.getLast?_map, getLast?_eq_getD tr (0, 0, 0) htrne]
            have hlp : tr.length - 1 = p := by omega
            rw [hlp]
            rfl
          have hct := hlastd (tr.getD p (0, 0, 0)) (by
            rw [getLast?_eq_getD tr (0, 0, 0) htrne]
            have hlp : tr.length - 1 = p := by omega
            rw [hlp])
          rw [hlast2]
          refine ⟨(tr.getD p (0, 0, 0)).2.2, _, hd0, rfl, ?_⟩
          show (tr.getD p (0, 0, 0)).2.2
              ≤ (extTrace (stFun waypoints) matrix (0 :: rs) start).2
                + matrix ((tr.getD p (0, 0, 0)).1 + 1) e
          have hmge := hm ((tr.getD p (0, 0, 0)).1 + 1) e
          omega

/-- The greedy fallback yields positional orders and chained,
non-overlapping timestamps for a non-negative matrix. -/
theorem fallback_chain (waypoints : List Waypoint) (matrix : Nat → Nat → Int)
    (start : Int) (eid : Option Nat)
    (hm : ∀ i j, (0 : Int) ≤ matrix i j) :
    ∀ S : FbState, S = fallbackFinal waypoints matrix start eid →
      (∀ p, p < S.ordered.length →
        ((S.ordered.map (fun i => S.wps.getD i default)).getD p default).order = some (p + 1))
      ∧ (∀ p, p + 1 < S.ordered.length →
          ∃ d a,
            ((S.ordered.map (fun i => S.wps.getD i default)).getD p default).departure_time
              = some d
            ∧ ((S.ordered.map (fun i => S.wps.getD i default)).getD (p + 1)
                default).arrival_time = some a
            ∧ d ≤ a) := by
  intro S hS
  subst hS
  have hOrd := fallback_orders waypoints matrix start eid
  have hT := fallback_times waypoints matrix start eid
  set F := (fallbackFinal waypoints matrix start eid).ordered with hF
  set W := (fallbackFinal waypoints matrix start eid).wps with hW
  set tr2 := schedList (stFun waypoints) matrix F 0 start with htr2
  have hlen2 : tr2.length = F.length := by
    rw [htr2, schedList_length]
  constructor
  · intro p hp
    rw [getD_map_lt _ _ hp default 0]
    have h1 := congrArg (fun t => t.getD p none) hOrd
    simp only at h1
    rw [getD_map_lt F _ hp none 0,
        getD_map_lt _ _ (by simpa using hp) none 0,
        range_getD hp] at h1
    rw [h1]
    congr 1
    omega
  · intro p hp
    have hp0 : p < F.length := by omega
    have hp1 : p + 1 < F.length := hp
    rw [getD_map_lt _ _ hp0 default 0, getD_map_lt _ _ hp1 default 0]
    have h2 := congrArg (fun t => t.getD p (none, none)) hT
    have h3 := congrArg (fun t => t.getD (p + 1) (none, none)) hT
    simp only at h2 h3
    rw [getD_map_lt F _ hp0 (none, none) 0,
        getD_map_lt tr2 _ (show p < tr2.length by omega) (none, none) (0, 0, 0)] at h2
    rw [getD_map_lt F _ hp1 (none, none) 0,
        getD_map_lt tr2 _ (show p + 1 < tr2.length by omega) (none, none) (0, 0, 0)] at h3
    have hd0 : (W.getD (F.getD p 0) default).departure_time
        = some ((tr2.getD p (0, 0, 0)).2.2) := congrArg Prod.snd h2
    have ha1 : (W.getD (F.getD (p + 1) 0) default).arrival_time
        = some ((tr2.getD (p + 1) (0, 0, 0)).2.1) := congrArg Prod.fst h3
    have hch := schedList_chain (stFun waypoints) matrix hm F 0 start p hp1
    exact ⟨_, _, hd0, ha1, hch⟩

/-- C8: on every path of solve_tsp — empty, single stop, greedy fallback, and
solver extraction with a well-formed route — given a travel-time matrix with
non-negative entries, the stop at position p of the result carries order
p + 1, and the departure time of each stop is at most the arrival time of the
next one: consecutive orders never overlap in time. -/
theorem C8_monotonic_time (waypoints : List Waypoint) (matrix : Nat → Nat → Int)
    (constraints : TripConstraints) (eid : Option Nat) (oracle : Option (List Nat))
    (hm : ∀ i j, (0 : Int) ≤ matrix i j)
    (ho : oracleOk waypoints.length oracle) :
    (∀ p, p < (solve_tsp waypoints matrix constraints eid oracle).1.length →
      ((solve_tsp waypoints matrix constraints eid oracle).1.getD p default).order
        = some (p + 1))
    ∧ (∀ p, p + 1 < (solve_tsp waypoints matrix constraints eid oracle).1.length →
        ∃ d a,
          ((solve_tsp waypoints matrix constraints eid oracle).1.getD p
              default).departure_time = some d
          ∧ ((solve_tsp waypoints matrix constraints eid oracle).1.getD (p + 1)
              default).arrival_time = some a
          ∧ d ≤ a) := by
  rcases waypoints with _ | ⟨w0, rest0⟩
  · constructor
    · intro p hp
      simp [solve_tsp] at hp
    · intro p hp
      simp [solve_tsp] at hp
  rcases rest0 with _ | ⟨w1, rest1⟩
  · constructor
    · intro p hp
      have hp1 : p < 1 := by simpa [solve_tsp] using hp
      have hp0 : p = 0 := by omega
      subst hp0
      rfl
    · intro p hp
      have hp1 : p + 1 < 1 := by simpa [solve_tsp] using hp
      omega
  rcases oracle with _ | route
  · have hmain := fallback_chain (w0 :: w1 :: rest1) matrix constraints.start_time eid hm
      (fallbackFinal (w0 :: w1 :: rest1) matrix constraints.start_time eid) rfl
    have hlen : (solve_tsp (w0 :: w1 :: rest1) matrix constraints eid none).1.length
        = (fallbackFinal (w0 :: w1 :: rest1) matrix
            constraints.start_time eid).ordered.length :=
      List.length_map _ _
    constructor
    · intro p hp
      exact hmain.1 p (by omega)
    · intro p hp
      exact hmain.2 p (by omega)
  · rcases ho with ⟨rs, hr0, hnd, hxs⟩
    subst hr0
    have heo : ∀ e, (findEndIdx (w0 :: w1 :: rest1) eid).map (· + 1) = some e →
        e - 1 < (w0 :: w1 :: rest1).length := by
      intro e he
      rcases hfe : findEndIdx (w0 :: w1 :: rest1) eid with _ | j
      · rw [hfe] at he
        cases he
      · rw [hfe] at he
        simp at he
        have hj := findEndIdx_lt hfe
        omega
    have hmain := extract_chain (w0 :: w1 :: rest1) matrix constraints.start_time
      ((findEndIdx (w0 :: w1 :: rest1) eid).map (· + 1)) rs hm hnd hxs heo
      (extractEnd matrix ((findEndIdx (w0 :: w1 :: rest1) eid).map (· + 1))
        (extractLoop matrix (0 :: rs)
          ⟨w0 :: w1 :: rest1, [], 1, constraints.start_time⟩)) rfl
    have hlen : (solve_tsp (w0 :: w1 :: rest1) matrix constraints eid
          (some (0 :: rs))).1.length
        = (extractEnd matrix ((findEndIdx (w0 :: w1 :: rest1) eid).map (· + 1))
            (extractLoop matrix (0 :: rs)
              ⟨w0 :: w1 :: rest1, [], 1, constraints.start_time⟩)).ordered.length :=
      List.length_map _ _
    constructor
    · intro p hp
      exact hmain.1 p (by omega)
    · intro p hp
      exact hmain.2 p (by omega)

theorem C8_monotonic_time_witness :
    (∀ p, p < (solve_tsp [wpFix, wpFix2] mFix ⟨0, 86400⟩ none none).1.length →
      ((solve_tsp [wpFix, wpFix2] mFix ⟨0, 86400⟩ none none).1.getD p default).order
        = some (p + 1))
    ∧ (∀ p, p + 1 < (solve_tsp [wpFix, wpFix2] mFix ⟨0, 86400⟩ none none).1.length →
        ∃ d a,
          ((solve_tsp [wpFix, wpFix2] mFix ⟨0, 86400⟩ none none).1.getD p
              default).departure_time = some d
          ∧ ((solve_tsp [wpFix, wpFix2] mFix ⟨0, 86400⟩ none none).1.getD (p + 1)
              default).arrival_time = some a
          ∧ d ≤ a) :=
  C8_monotonic_time [wpFix, wpFix2] mFix ⟨0, 86400⟩ none none
    (fun i j => by
      show (0 : Int) ≤ 600
      decide) trivial
